import Mathlib

/-!
Verification of the arbitrary-precision integer core of the bigmul
repository (src/main.rs).  Limb vectors are modelled as `List Nat`
(least-significant limb first), strings as `List Char`.  Each definition
mirrors the corresponding Rust function.
-/

namespace BigMul

/-- The limb base, `const BASE : u64 = 1_000_000_000`. -/
def BASE : Nat := 1000000000

/-- Numeric value of a limb vector: sum of limb i times BASE to the i. -/
def val : List Nat → Nat
  | [] => 0
  | d :: ds => d + BASE * val ds

/-- Drop leading zeros of a list while more than one element remains.
Applied to the reversed limb vector this is the loop body of
`BigInt::normalize` (pop trailing zeros while the length exceeds 1). -/
def stripLeadKeep : List Nat → List Nat
  | [] => []
  | [x] => [x]
  | x :: y :: ys => if x = 0 then stripLeadKeep (y :: ys) else x :: y :: ys

/-- `BigInt::normalize`: strip high-order zero limbs, keeping at least one. -/
def normalize (l : List Nat) : List Nat :=
  (stripLeadKeep l.reverse).reverse

/-- Carry-propagating addition loop of `BigInt::add_slices`: position-wise
sum mod BASE with carry, followed by the final carry limb (the slot
`result[max_len]`, left as 0 when the final carry is 0). -/
def addAux : List Nat → List Nat → Nat → List Nat
  | [], [], c => [c]
  | a :: as, [], c => (a + c) % BASE :: addAux as [] ((a + c) / BASE)
  | [], b :: bs, c => (b + c) % BASE :: addAux [] bs ((b + c) / BASE)
  | a :: as, b :: bs, c => (a + b + c) % BASE :: addAux as bs ((a + b + c) / BASE)
termination_by a b _ => a.length + b.length

/-- `BigInt::add_slices`. -/
def add_slices (a b : List Nat) : List Nat :=
  normalize (addAux a b 0)

/-- Borrow-propagating subtraction loop of `BigInt::sub_slices`:
`diff = a[i] - b[i] - borrow` in `i64`; if negative, add BASE and set the
borrow; the result limb is the `i64` value cast to `u32` (truncation
modelled by `emod 2^32`).  The loop runs over the positions of `a` only;
a final borrow, if any, is discarded. -/
def subAux : List Nat → List Nat → Nat → List Nat
  | [], _, _ => []
  | a :: as, b :: bs, brw =>
      let d : Int := (a : Int) - (b : Int) - (brw : Int)
      if d < 0 then ((d + (BASE : Int)) % 4294967296).toNat :: subAux as bs 1
      else (d % 4294967296).toNat :: subAux as bs 0
  | a :: as, [], brw =>
      let d : Int := (a : Int) - (brw : Int)
      if d < 0 then ((d + (BASE : Int)) % 4294967296).toNat :: subAux as [] 1
      else (d % 4294967296).toNat :: subAux as [] 0

/-- `BigInt::sub_slices`. -/
def sub_slices (a b : List Nat) : List Nat :=
  normalize (subAux a b 0)

/-- `BigInt::shift_left_slices`: prepend k zero limbs, except that the
exact single-limb zero vector is returned unchanged. -/
def shift_left_slices (digits : List Nat) (k : Nat) : List Nat :=
  if digits = [0] then [0] else List.replicate k 0 ++ digits

/-- The `while carry > 0` loop of `BigInt::mul_direct_slices`, acting on
the suffix of the result vector starting at position `k = i + len_b`
(pushing fresh zero limbs when the vector is exhausted). -/
def carryTail : List Nat → Nat → List Nat
  | rest, 0 => rest
  | [], c + 1 => (c + 1) % BASE :: carryTail [] ((c + 1) / BASE)
  | r :: rs, c + 1 => (r + (c + 1)) % BASE :: carryTail rs ((r + (c + 1)) / BASE)
termination_by rest c => rest.sum + c
decreasing_by
· have h1 : (c + 1) / BASE < c + 1 := Nat.div_lt_self (Nat.succ_pos c) (by norm_num [BASE])
  simpa using h1
· have h1 : (r + (c + 1)) / BASE < r + (c + 1) :=
    Nat.div_lt_self (by omega) (by norm_num [BASE])
  simp only [List.sum_cons]
  omega

/-- Inner loop of `BigInt::mul_direct_slices` for one limb `ai` of `a`:
for each limb of `b`, accumulate `ai * b[j] + result[i+j] + carry` into
the result suffix starting at position `i`, then propagate the remaining
carry with the `while` loop. -/
def mulAddLoop (ai : Nat) : List Nat → List Nat → Nat → List Nat
  | [], res, c => carryTail res c
  | bj :: bs, r :: rs, c =>
      (ai * bj + r + c) % BASE :: mulAddLoop ai bs rs ((ai * bj + r + c) / BASE)
  | bj :: bs, [], c =>
      (ai * bj + c) % BASE :: mulAddLoop ai bs [] ((ai * bj + c) / BASE)

/-- Outer loop of `BigInt::mul_direct_slices` over the limbs of `a`;
row `i` updates the result suffix starting at position `i`. -/
def mulLoop (b : List Nat) : List Nat → List Nat → List Nat
  | [], res => res
  | ai :: arest, res =>
      match mulAddLoop ai b res 0 with
      | [] => []
      | r0 :: rest => r0 :: mulLoop b arest rest

/-- `BigInt::mul_direct_slices` (schoolbook multiplication). -/
def mul_direct_slices (a b : List Nat) : List Nat :=
  if a = [] ∨ b = [] then [0]
  else normalize (mulLoop b a (List.replicate (a.length + b.length) 0))

/-- `BigInt::mul_dc_slices` (naive 4-multiply divide and conquer):
split both operands at m = max(len a, len b) / 2, recurse four times and
recombine; below 33 limbs delegate to direct multiplication. -/
def mul_dc_slices (a b : List Nat) : List Nat :=
  if hab : a = [] ∨ b = [] then [0]
  else if hn : max a.length b.length ≤ 32 then mul_direct_slices a b
  else
    let m := max a.length b.length / 2
    let a0 := a.take m
    let a1 := a.drop m
    let b0 := b.take m
    let b1 := b.drop m
    let p := mul_dc_slices a0 b0
    let q := mul_dc_slices a1 b1
    let r := mul_dc_slices a0 b1
    let s := mul_dc_slices a1 b0
    let mid := add_slices r s
    let q_shifted := shift_left_slices q (2 * m)
    let mid_shifted := shift_left_slices mid m
    let temp := add_slices q_shifted mid_shifted
    add_slices temp p
termination_by max a.length b.length
decreasing_by
all_goals
  have ha : 0 < a.length := List.length_pos.mpr (fun h => hab (Or.inl h))
  have hb : 0 < b.length := List.length_pos.mpr (fun h => hab (Or.inr h))
  simp only [List.length_take, List.length_drop]
  omega

/-- `BigInt::mul_karatsuba_slices` (3-multiply Karatsuba split): same
splitting and base case as the naive divide and conquer, but with the
third product taken on the limb sums and the cross term recovered by
subtraction. -/
def mul_karatsuba_slices (a b : List Nat) : List Nat :=
  if hab : a = [] ∨ b = [] then [0]
  else if hn : max a.length b.length ≤ 32 then mul_direct_slices a b
  else
    let m := max a.length b.length / 2
    let a0 := a.take m
    let a1 := a.drop m
    let b0 := b.take m
    let b1 := b.drop m
    let p := mul_karatsuba_slices a0 b0
    let q := mul_karatsuba_slices a1 b1
    let sum_a := add_slices a0 a1
    let sum_b := add_slices b0 b1
    let u := mul_karatsuba_slices sum_a sum_b
    let sum_pq := add_slices p q
    let mid := sub_slices u sum_pq
    let q_shifted := shift_left_slices q (2 * m)
    let mid_shifted := shift_left_slices mid m
    let temp := add_slices q_shifted mid_shifted
    add_slices temp p
termination_by max a.length b.length
decreasing_by
· have ha : 0 < a.length := List.length_pos.mpr (fun h => hab (Or.inl h))
  have hb : 0 < b.length := List.length_pos.mpr (fun h => hab (Or.inr h))
  simp only [List.length_take, List.length_drop]
  omega
· have ha : 0 < a.length := List.length_pos.mpr (fun h => hab (Or.inl h))
  have hb : 0 < b.length := List.length_pos.mpr (fun h => hab (Or.inr h))
  simp only [List.length_take, List.length_drop]
  omega
· have haux : ∀ (u : List Nat), ∀ (v : List Nat) (c : Nat),
      (addAux u v c).length = max u.length v.length + 1 := by
    intro u
    induction u with
    | nil =>
      intro v
      induction v with
      | nil => intro c; simp [addAux]
      | cons y ys ih =>
        intro c
        simp only [addAux, List.length_cons, List.length_nil]
        rw [ih]
        simp
    | cons x xs ih =>
      intro v c
      cases v with
      | nil =>
        simp only [addAux, List.length_cons, List.length_nil]
        rw [ih [] _]
        simp
      | cons y ys =>
        simp only [addAux, List.length_cons]
        rw [ih ys _]
        omega
  have hstrip : ∀ r : List Nat, (stripLeadKeep r).length ≤ r.length := by
    intro r
    induction r with
    | nil => simp [stripLeadKeep]
    | cons x xs ih =>
      cases xs with
      | nil => simp [stripLeadKeep]
      | cons y ys =>
        simp only [stripLeadKeep]
        split
        · exact le_trans ih (by simp)
        · simp
  have key : ∀ x y : List Nat, (add_slices x y).length ≤ max x.length y.length + 1 := by
    intro x y
    simp only [add_slices, normalize, List.length_reverse]
    exact le_trans (hstrip _) (by rw [List.length_reverse, haux])
  have ha : 0 < a.length := List.length_pos.mpr (fun h => hab (Or.inl h))
  have hb : 0 < b.length := List.length_pos.mpr (fun h => hab (Or.inr h))
  have k1 := key (a.take (max a.length b.length / 2)) (a.drop (max a.length b.length / 2))
  have k2 := key (b.take (max a.length b.length / 2)) (b.drop (max a.length b.length / 2))
  simp only [List.length_take, List.length_drop] at k1 k2 ⊢
  omega

/-- ASCII decimal digit test, as Rust's u32 parser applies to each byte. -/
def isDigitChar (c : Char) : Bool :=
  48 ≤ c.toNat && c.toNat ≤ 57

/-- Value of a most-significant-first digit string (left fold, times 10
and add at each digit).  Meaningful only on all-digit strings. -/
def parseDigits (cs : List Char) : Nat :=
  cs.foldl (fun acc c => acc * 10 + (c.toNat - 48)) 0

/-- Strip one leading plus sign, as Rust's unsigned integer parser does. -/
def stripPlus (cs : List Char) : List Char :=
  if cs.head? = some '+' then cs.tail else cs

/-- Success condition of `str::parse::<u32>`: after an optional leading
plus sign there is at least one character, all characters are ASCII
digits, and the value fits in 32 bits.  (A leading minus sign fails for
an unsigned target; either way such a chunk contributes 0 below.) -/
def u32ParseOk (cs : List Char) : Bool :=
  let ds := stripPlus cs
  !ds.isEmpty && ds.all isDigitChar && decide (parseDigits ds < 4294967296)

/-- `chunk.parse::<u32>().unwrap_or(0)`: the parsed value on success,
otherwise 0. -/
def rustParseU32 (cs : List Char) : Nat :=
  if u32ParseOk cs then parseDigits (stripPlus cs) else 0

/-- The chunking loop of `BigInt::from_str`, at the character level:
repeatedly take up to nine characters from the right end of the string,
parse them as one limb and continue on the remaining prefix.  The source
indexes bytes, not characters; `byteChunkLoop` below is the byte-exact
model, including the panic when a chunk boundary falls inside a
multi-byte character, and on ASCII strings the two models coincide
(theorem `byteChunkLoop_ascii`). -/
def chunkLoop (s : List Char) : List Nat :=
  if h : s.isEmpty then []
  else
    let c := min 9 s.length
    rustParseU32 (s.drop (s.length - c)) :: chunkLoop (s.take (s.length - c))
termination_by s.length
decreasing_by
  have hs : 0 < s.length := by cases s with
    | nil => simp at h
    | cons x xs => simp
  simp only [List.length_take]
  omega

/-- The chunk strings themselves (least-significant chunk first), for
stating how `from_str` decomposes its input; character-level like
`chunkLoop`, hence byte-exact on ASCII strings only. -/
def chunkList (s : List Char) : List (List Char) :=
  if h : s.isEmpty then []
  else
    let c := min 9 s.length
    s.drop (s.length - c) :: chunkList (s.take (s.length - c))
termination_by s.length
decreasing_by
  have hs : 0 < s.length := by cases s with
    | nil => simp at h
    | cons x xs => simp
  simp only [List.length_take]
  omega

/-- Number of bytes of one character in UTF-8, as Rust's `char::len_utf8`:
the byte length that string indexing and truncation count. -/
def utf8Len (c : Char) : Nat :=
  if c.toNat < 128 then 1
  else if c.toNat < 2048 then 2
  else if c.toNat < 65536 then 3
  else 4

/-- UTF-8 byte length of a string, Rust's `str::len`. -/
def byteLen (s : List Char) : Nat := (s.map utf8Len).sum

/-- Split a string at a byte index, as Rust slicing `&s[..p]` / `&s[p..]`
does: returns the two halves when the index lies on a character boundary
and none (the slicing panic) when it falls inside a multi-byte character. -/
def splitAtByte : Nat → List Char → Option (List Char × List Char)
  | 0, s => some ([], s)
  | _ + 1, [] => none
  | p + 1, c :: cs =>
      if utf8Len c ≤ p + 1 then
        match splitAtByte (p + 1 - utf8Len c) cs with
        | none => none
        | some (x, y) => some (c :: x, y)
      else none

/-- The chunking loop of `BigInt::from_str` at the byte level, faithful to
`let chunk_size = min(9, ss.len()); let chunk = &ss[ss.len()-chunk_size..];
ss.truncate(ss.len()-chunk_size)`: take up to nine BYTES from the right;
none models the panic when that boundary splits a multi-byte character. -/
def byteChunkLoop (s : List Char) : Option (List Nat) :=
  if s.isEmpty then some []
  else
    match hsplit : splitAtByte (byteLen s - min 9 (byteLen s)) s with
    | none => none
    | some (pre, chunk) =>
        match byteChunkLoop pre with
        | none => none
        | some rest => some (rustParseU32 chunk :: rest)
termination_by s.length
decreasing_by
  have hsp_eq : ∀ (p : Nat) (t x y : List Char),
      splitAtByte p t = some (x, y) → x ++ y = t ∧ byteLen x = p := by
    intro p t
    induction t generalizing p with
    | nil =>
      intro x y hxy
      cases p with
      | zero =>
        simp only [splitAtByte, Option.some.injEq, Prod.mk.injEq] at hxy
        simp [← hxy.1, ← hxy.2, byteLen]
      | succ q => simp [splitAtByte] at hxy
    | cons c cs ih =>
      intro x y hxy
      cases p with
      | zero =>
        simp only [splitAtByte, Option.some.injEq, Prod.mk.injEq] at hxy
        simp [← hxy.1, ← hxy.2, byteLen]
      | succ q =>
        simp only [splitAtByte] at hxy
        split at hxy
        · rename_i hle
          cases hx2 : splitAtByte (q + 1 - utf8Len c) cs with
          | none => rw [hx2] at hxy; simp at hxy
          | some xy =>
            rw [hx2] at hxy
            obtain ⟨x2, y2⟩ := xy
            simp only [Option.some.injEq, Prod.mk.injEq] at hxy
            have hih := ih (q + 1 - utf8Len c) x2 y2 hx2
            constructor
            · rw [← hxy.1, ← hxy.2]
              simp [hih.1]
            · rw [← hxy.1]
              simp only [byteLen, List.map_cons, List.sum_cons]
              have h3 : byteLen x2 = q + 1 - utf8Len c := hih.2
              simp only [byteLen] at h3
              omega
        · simp at hxy
  have h1 := hsp_eq _ _ _ _ hsplit
  have hulen : ∀ c : Char, 1 ≤ utf8Len c := by
    intro c
    unfold utf8Len
    repeat' split
    all_goals omega
  have hblen : 1 ≤ byteLen s := by
    cases s with
    | nil => simp at *
    | cons c cs =>
      simp only [byteLen, List.map_cons, List.sum_cons]
      have := hulen c
      omega
  have hchunk_ne : chunk ≠ [] := by
    intro hc
    have h2 : byteLen s = byteLen pre + byteLen chunk := by
      rw [← h1.1]
      simp only [byteLen, List.map_append, List.sum_append]
    have h5 := h1.2
    rw [hc] at h2
    have h6 : byteLen ([] : List Char) = 0 := rfl
    omega
  have h3 : pre.length + chunk.length = s.length := by
    rw [← h1.1]
    simp
  have h4 : 0 < chunk.length := List.length_pos.mpr hchunk_ne
  omega

/-- The arbitrary-precision integer: a wrapper around the limb vector. -/
structure BigInt where
  digits : List Nat
deriving DecidableEq

/-- `BigInt::new()`: the zero value. -/
def new : BigInt := ⟨[0]⟩

/-- `BigInt::from_str`: chunk the decimal string from the right, parse
each chunk as a limb, normalize, and restore a single zero limb if the
vector came out empty.  Character-level chunking; `from_str_bytes` below
is the byte-exact variant and agrees with this one on ASCII input. -/
def from_str (s : List Char) : BigInt :=
  if s.isEmpty then ⟨[0]⟩
  else
    let ds := normalize (chunkLoop s)
    ⟨if ds.isEmpty then [0] else ds⟩

/-- `BigInt::from_str` with the source's byte-indexed chunking: none
models the panic raised when a nine-byte chunk boundary falls inside a
multi-byte character. -/
def from_str_bytes (s : List Char) : Option BigInt :=
  if s.isEmpty then some ⟨[0]⟩
  else
    match byteChunkLoop s with
    | none => none
    | some digitsList =>
        let ds := normalize digitsList
        some ⟨if ds.isEmpty then [0] else ds⟩

/-- Decimal rendering of a number, most significant digit first (the
model of Rust's integer Display). -/
def decimalChars (n : Nat) : List Char :=
  (Nat.digits 10 n).reverse.map (fun d => Char.ofNat (48 + d))

/-- Rust's `u32::to_string`: 0 renders as the single character 0. -/
def natToString (n : Nat) : List Char :=
  if n = 0 then ['0'] else decimalChars n

/-- Rust's zero-padded 9-wide format of one limb. -/
def pad9 (d : Nat) : List Char :=
  List.replicate (9 - (natToString d).length) '0' ++ natToString d

/-- `BigInt::to_string`: the most significant limb unpadded, every lower
limb zero-padded to nine digits. -/
def to_string (x : BigInt) : List Char :=
  if x.digits = [] ∨ x.digits = [0] then ['0']
  else
    match x.digits.reverse with
    | [] => ['0']
    | hd :: tl => natToString hd ++ (tl.map pad9).flatten

/-- `BigInt::add`. -/
def add (x y : BigInt) : BigInt := ⟨add_slices x.digits y.digits⟩

/-- `BigInt::sub`. -/
def sub (x y : BigInt) : BigInt := ⟨sub_slices x.digits y.digits⟩

/-- `BigInt::shift_left`. -/
def shift_left (x : BigInt) (k : Nat) : BigInt := ⟨shift_left_slices x.digits k⟩

/-- `BigInt::mul_direct`. -/
def mul_direct (x y : BigInt) : BigInt := ⟨mul_direct_slices x.digits y.digits⟩

/-- `BigInt::mul_dc`. -/
def mul_dc (x y : BigInt) : BigInt := ⟨mul_dc_slices x.digits y.digits⟩

/-- `BigInt::mul_karatsuba`. -/
def mul_karatsuba (x y : BigInt) : BigInt := ⟨mul_karatsuba_slices x.digits y.digits⟩

/-- The canonical limb vector of a number: the single limb 0 for zero,
otherwise its base-BASE digit expansion (most significant limb nonzero). -/
def canonRepr (n : Nat) : List Nat :=
  if n = 0 then [0] else Nat.digits BASE n

/-- The spec's normalized-form invariant: non-empty, every limb below
BASE, and the most significant limb nonzero unless the vector is exactly
the single limb 0. -/
def Normalized (l : List Nat) : Prop :=
  l ≠ [] ∧ (∀ x ∈ l, x < BASE) ∧ (l.getLast? ≠ some 0 ∨ l = [0])

instance decidableNormalized (l : List Nat) : Decidable (Normalized l) :=
  inferInstanceAs (Decidable
    (l ≠ [] ∧ (∀ x ∈ l, x < BASE) ∧ (l.getLast? ≠ some 0 ∨ l = [0])))

theorem one_lt_BASE : 1 < BASE := by norm_num [BASE]

@[simp]
theorem val_nil : val [] = 0 := rfl

@[simp]
theorem val_cons (d : Nat) (ds : List Nat) : val (d :: ds) = d + BASE * val ds := rfl

theorem val_eq_ofDigits (l : List Nat) : val l = Nat.ofDigits BASE l := by
  induction l with
  | nil => simp [Nat.ofDigits]
  | cons d ds ih => rw [val_cons, Nat.ofDigits_cons, ih]

theorem val_append (xs ys : List Nat) :
    val (xs ++ ys) = val xs + BASE ^ xs.length * val ys := by
  simp [val_eq_ofDigits, Nat.ofDigits_append]

@[simp]
theorem val_replicate_zero (k : Nat) : val (List.replicate k 0) = 0 := by
  induction k with
  | zero => rfl
  | succ n ih => simp [List.replicate_succ, ih]

theorem val_lt_pow {l : List Nat} (h : ∀ x ∈ l, x < BASE) :
    val l < BASE ^ l.length := by
  rw [val_eq_ofDigits]
  exact Nat.ofDigits_lt_base_pow_length one_lt_BASE h

theorem val_canonRepr (n : Nat) : val (canonRepr n) = n := by
  unfold canonRepr
  split
  · simp_all
  · rw [val_eq_ofDigits, Nat.ofDigits_digits]

theorem normalized_canonRepr (n : Nat) : Normalized (canonRepr n) := by
  unfold canonRepr Normalized
  split
  · refine ⟨by simp, by simp [BASE], Or.inr rfl⟩
  · rename_i hn
    have hne : Nat.digits BASE n ≠ [] := Nat.digits_ne_nil_iff_ne_zero.mpr hn
    refine ⟨hne, fun x hx => Nat.digits_lt_base one_lt_BASE hx, Or.inl ?_⟩
    rw [List.getLast?_eq_getLast _ hne]
    intro hc
    exact Nat.getLast_digit_ne_zero BASE hn (Option.some.inj hc)

theorem eq_canonRepr_of_normalized {l : List Nat} (h : Normalized l) :
    l = canonRepr (val l) := by
  obtain ⟨hne, hlt, hshape⟩ := h
  rcases hshape with hlast | hzero
  · have hlast' : l.getLast hne ≠ 0 := by
      intro h0
      exact hlast (by rw [List.getLast?_eq_getLast _ hne, h0])
    have hd : Nat.digits BASE (Nat.ofDigits BASE l) = l :=
      Nat.digits_ofDigits BASE one_lt_BASE l hlt (fun _ => hlast')
    have hv0 : val l ≠ 0 := by
      intro h0
      rw [val_eq_ofDigits] at h0
      rw [h0] at hd
      simp at hd
      exact hne hd
    rw [canonRepr, if_neg hv0, val_eq_ofDigits, hd]
  · rw [hzero]
    rfl

theorem stripLeadKeep_length_le (r : List Nat) :
    (stripLeadKeep r).length ≤ r.length := by
  induction r with
  | nil => simp [stripLeadKeep]
  | cons x xs ih =>
    cases xs with
    | nil => simp [stripLeadKeep]
    | cons y ys =>
      simp only [stripLeadKeep]
      split
      · exact le_trans ih (by simp)
      · simp

theorem mem_stripLeadKeep {r : List Nat} {x : Nat} (h : x ∈ stripLeadKeep r) :
    x ∈ r := by
  induction r with
  | nil => simpa [stripLeadKeep] using h
  | cons a xs ih =>
    cases xs with
    | nil => simpa [stripLeadKeep] using h
    | cons y ys =>
      simp only [stripLeadKeep] at h
      split at h
      · exact List.mem_cons_of_mem _ (ih h)
      · exact h

theorem val_reverse_stripLeadKeep (r : List Nat) :
    val (stripLeadKeep r).reverse = val r.reverse := by
  induction r with
  | nil => rfl
  | cons x xs ih =>
    cases xs with
    | nil => rfl
    | cons y ys =>
      by_cases hx : x = 0
      · simp only [stripLeadKeep, if_pos hx]
        rw [ih]
        subst hx
        conv_rhs => rw [List.reverse_cons]
        rw [val_append]
        simp
      · simp [stripLeadKeep, hx]

theorem stripLeadKeep_shape (r : List Nat) (h : r ≠ []) :
    stripLeadKeep r ≠ [] ∧
      ((stripLeadKeep r).head? ≠ some 0 ∨ stripLeadKeep r = [0]) := by
  induction r with
  | nil => exact absurd rfl h
  | cons x xs ih =>
    cases xs with
    | nil =>
      by_cases hx : x = 0
      · exact ⟨by simp [stripLeadKeep], Or.inr (by simp [stripLeadKeep, hx])⟩
      · exact ⟨by simp [stripLeadKeep], Or.inl (by simp [stripLeadKeep, hx])⟩
    | cons y ys =>
      by_cases hx : x = 0
      · simp only [stripLeadKeep, if_pos hx]
        exact ih (by simp)
      · simp only [stripLeadKeep, if_neg hx]
        exact ⟨by simp, Or.inl (by simp [hx])⟩

theorem val_normalize (l : List Nat) : val (normalize l) = val l := by
  unfold normalize
  rw [val_reverse_stripLeadKeep, List.reverse_reverse]

theorem normalize_ne_nil {l : List Nat} (h : l ≠ []) : normalize l ≠ [] := by
  unfold normalize
  simpa using (stripLeadKeep_shape l.reverse (by simpa)).1

theorem mem_normalize {l : List Nat} {x : Nat} (h : x ∈ normalize l) : x ∈ l := by
  unfold normalize at h
  rw [List.mem_reverse] at h
  exact List.mem_reverse.mp (mem_stripLeadKeep h)

theorem normalize_shape (l : List Nat) (h : l ≠ []) :
    (normalize l).getLast? ≠ some 0 ∨ normalize l = [0] := by
  rcases (stripLeadKeep_shape l.reverse (by simpa)).2 with h1 | h1
  · left
    unfold normalize
    rw [List.getLast?_reverse]
    exact h1
  · right
    unfold normalize
    rw [h1]
    rfl

theorem normalize_length_le (l : List Nat) : (normalize l).length ≤ l.length := by
  unfold normalize
  rw [List.length_reverse]
  exact le_trans (stripLeadKeep_length_le _) (by simp)

theorem normalized_normalize {l : List Nat} (h : l ≠ []) (hlt : ∀ x ∈ l, x < BASE) :
    Normalized (normalize l) :=
  ⟨normalize_ne_nil h, fun x hx => hlt x (mem_normalize hx), normalize_shape l h⟩

theorem normalize_eq_canonRepr {l : List Nat} (h : l ≠ []) (hlt : ∀ x ∈ l, x < BASE) :
    normalize l = canonRepr (val l) := by
  have h2 := eq_canonRepr_of_normalized (normalized_normalize h hlt)
  rwa [val_normalize] at h2

theorem addAux_length : ∀ (a : List Nat), ∀ (b : List Nat) (c : Nat),
    (addAux a b c).length = max a.length b.length + 1 := by
  intro a
  induction a with
  | nil =>
    intro b
    induction b with
    | nil => intro c; simp [addAux]
    | cons y ys ih =>
      intro c
      simp only [addAux, List.length_cons, List.length_nil]
      rw [ih]
      simp
  | cons x xs ih =>
    intro b c
    cases b with
    | nil =>
      simp only [addAux, List.length_cons, List.length_nil]
      rw [ih [] _]
      simp
    | cons y ys =>
      simp only [addAux, List.length_cons]
      rw [ih ys _]
      omega

theorem addAux_ne_nil (a b : List Nat) (c : Nat) : addAux a b c ≠ [] := by
  intro h
  have h2 := addAux_length a b c
  rw [h] at h2
  simp at h2

theorem val_addAux : ∀ (a : List Nat), ∀ (b : List Nat) (c : Nat),
    val (addAux a b c) = val a + val b + c := by
  intro a
  induction a with
  | nil =>
    intro b
    induction b with
    | nil => intro c; simp [addAux]
    | cons y ys ih =>
      intro c
      simp only [addAux, val_cons, val_nil]
      rw [ih]
      simp only [val_nil, BASE]
      omega
  | cons x xs ih =>
    intro b c
    cases b with
    | nil =>
      simp only [addAux, val_cons, val_nil]
      rw [ih [] _]
      simp only [val_nil, BASE]
      omega
    | cons y ys =>
      simp only [addAux, val_cons]
      rw [ih ys _]
      simp only [BASE]
      omega

theorem addAux_lt : ∀ (a : List Nat), ∀ (b : List Nat) (c : Nat),
    (∀ x ∈ a, x < BASE) → (∀ x ∈ b, x < BASE) → c ≤ 1 →
    ∀ x ∈ addAux a b c, x < BASE := by
  intro a
  induction a with
  | nil =>
    intro b
    induction b with
    | nil =>
      intro c _ _ hc x hx
      simp only [addAux, List.mem_singleton] at hx
      subst hx
      simp only [BASE]
      omega
    | cons y ys ih =>
      intro c _ hb hc x hx
      simp only [addAux, List.mem_cons] at hx
      have hy : y < BASE := hb y (by simp)
      rcases hx with rfl | hx
      · simp only [BASE] at *
        omega
      · refine ih _ (by simp) (fun z hz => hb z (by simp [hz])) ?_ x hx
        simp only [BASE] at *
        omega
  | cons a' as ih =>
    intro b c ha hb hc x hx
    have ha' : a' < BASE := ha a' (by simp)
    cases b with
    | nil =>
      simp only [addAux, List.mem_cons] at hx
      rcases hx with rfl | hx
      · simp only [BASE] at *
        omega
      · refine ih [] _ (fun z hz => ha z (by simp [hz])) (by simp) ?_ x hx
        simp only [BASE] at *
        omega
    | cons y ys =>
      have hy : y < BASE := hb y (by simp)
      simp only [addAux, List.mem_cons] at hx
      rcases hx with rfl | hx
      · simp only [BASE] at *
        omega
      · refine ih ys _ (fun z hz => ha z (by simp [hz]))
          (fun z hz => hb z (by simp [hz])) ?_ x hx
        simp only [BASE] at *
        omega

theorem add_slices_eq_canonRepr {a b : List Nat}
    (ha : ∀ x ∈ a, x < BASE) (hb : ∀ x ∈ b, x < BASE) :
    add_slices a b = canonRepr (val a + val b) := by
  unfold add_slices
  rw [normalize_eq_canonRepr (addAux_ne_nil a b 0) (addAux_lt a b 0 ha hb (by omega)),
    val_addAux]
  simp

theorem val_add_slices {a b : List Nat}
    (ha : ∀ x ∈ a, x < BASE) (hb : ∀ x ∈ b, x < BASE) :
    val (add_slices a b) = val a + val b := by
  rw [add_slices_eq_canonRepr ha hb, val_canonRepr]

theorem add_slices_length_le (a b : List Nat) :
    (add_slices a b).length ≤ max a.length b.length + 1 := by
  unfold add_slices
  exact le_trans (normalize_length_le _) (le_of_eq (addAux_length a b 0))

theorem subAux_length : ∀ (a : List Nat), ∀ (b : List Nat) (brw : Nat),
    (subAux a b brw).length = a.length := by
  intro a
  induction a with
  | nil => intro b brw; rfl
  | cons a' as ih =>
    intro b brw
    cases b with
    | nil =>
      simp only [subAux]
      split <;> simp [ih]
    | cons y ys =>
      simp only [subAux]
      split <;> simp [ih]

theorem subAux_lt : ∀ (a : List Nat), ∀ (b : List Nat) (brw : Nat),
    (∀ x ∈ a, x < BASE) → (∀ x ∈ b, x < BASE) → brw ≤ 1 →
    ∀ x ∈ subAux a b brw, x < BASE := by
  intro a
  induction a with
  | nil => intro b brw _ _ _ x hx; simp [subAux] at hx
  | cons a' as ih =>
    intro b brw ha hb hbrw x hx
    have ha' : a' < BASE := ha a' (by simp)
    cases b with
    | nil =>
      simp only [subAux] at hx
      split at hx <;> simp only [List.mem_cons] at hx <;>
        rcases hx with rfl | hx
      · rename_i hd
        simp only [BASE] at *
        omega
      · exact ih [] 1 (fun z hz => ha z (by simp [hz])) (by simp) (by omega) x hx
      · rename_i hd
        simp only [BASE] at *
        omega
      · exact ih [] 0 (fun z hz => ha z (by simp [hz])) (by simp) (by omega) x hx
    | cons y ys =>
      have hy : y < BASE := hb y (by simp)
      simp only [subAux] at hx
      split at hx <;> simp only [List.mem_cons] at hx <;>
        rcases hx with rfl | hx
      · rename_i hd
        simp only [BASE] at *
        omega
      · exact ih ys 1 (fun z hz => ha z (by simp [hz]))
          (fun z hz => hb z (by simp [hz])) (by omega) x hx
      · rename_i hd
        simp only [BASE] at *
        omega
      · exact ih ys 0 (fun z hz => ha z (by simp [hz]))
          (fun z hz => hb z (by simp [hz])) (by omega) x hx

theorem val_subAux : ∀ (a : List Nat), ∀ (b : List Nat) (brw : Nat),
    (∀ x ∈ a, x < BASE) → (∀ x ∈ b, x < BASE) → brw ≤ 1 →
    val b + brw ≤ val a →
    val (subAux a b brw) = val a - val b - brw := by
  intro a
  induction a with
  | nil =>
    intro b brw _ _ _ hle
    simp only [val_nil] at hle ⊢
    simp [subAux]
  | cons a' as ih =>
    intro b brw ha hb hbrw hle
    have ha' : a' < BASE := ha a' (by simp)
    have has : ∀ x ∈ as, x < BASE := fun z hz => ha z (by simp [hz])
    cases b with
    | nil =>
      simp only [subAux, val_cons, val_nil] at hle ⊢
      split
      · rename_i hd
        have hvas : 0 + 1 ≤ val as := by
          simp only [BASE] at *
          omega
        rw [val_cons, ih [] 1 has (by simp) (by omega) hvas]
        simp only [val_nil, BASE] at *
        omega
      · rename_i hd
        rw [val_cons, ih [] 0 has (by simp) (by omega) (by simp)]
        simp only [val_nil, BASE] at *
        omega
    | cons y ys =>
      have hy : y < BASE := hb y (by simp)
      have hys : ∀ x ∈ ys, x < BASE := fun z hz => hb z (by simp [hz])
      simp only [subAux, val_cons] at hle ⊢
      split
      · rename_i hd
        have hvys : val ys + 1 ≤ val as := by
          simp only [BASE] at *
          omega
        rw [val_cons, ih ys 1 has hys (by omega) hvys]
        simp only [BASE] at *
        omega
      · rename_i hd
        have hvys : val ys + 0 ≤ val as := by
          simp only [BASE] at *
          omega
        rw [val_cons, ih ys 0 has hys (by omega) hvys]
        simp only [BASE] at *
        omega

theorem sub_slices_eq_canonRepr {a b : List Nat} (hne : a ≠ [])
    (ha : ∀ x ∈ a, x < BASE) (hb : ∀ x ∈ b, x < BASE)
    (hle : val b ≤ val a) :
    sub_slices a b = canonRepr (val a - val b) := by
  unfold sub_slices
  have h1 : subAux a b 0 ≠ [] := by
    intro h
    have h2 := subAux_length a b 0
    rw [h] at h2
    exact hne (List.length_eq_zero.mp h2.symm)
  rw [normalize_eq_canonRepr h1 (subAux_lt a b 0 ha hb (by omega)),
    val_subAux a b 0 ha hb (by omega) (by omega)]
  simp

theorem normalized_sub_slices {a b : List Nat} (hne : a ≠ [])
    (ha : ∀ x ∈ a, x < BASE) (hb : ∀ x ∈ b, x < BASE) :
    Normalized (sub_slices a b) := by
  unfold sub_slices
  have h1 : subAux a b 0 ≠ [] := by
    intro h
    have h2 := subAux_length a b 0
    rw [h] at h2
    exact hne (List.length_eq_zero.mp h2.symm)
  exact normalized_normalize h1 (subAux_lt a b 0 ha hb (by omega))

theorem val_shift_left_slices (l : List Nat) (k : Nat) :
    val (shift_left_slices l k) = BASE ^ k * val l := by
  unfold shift_left_slices
  split
  · rename_i h
    rw [h]
    simp
  · rw [val_append]
    simp

theorem shift_left_slices_lt {l : List Nat} (h : ∀ x ∈ l, x < BASE) (k : Nat) :
    ∀ x ∈ shift_left_slices l k, x < BASE := by
  unfold shift_left_slices
  split
  · intro x hx
    simp only [List.mem_singleton] at hx
    subst hx
    simp only [BASE]
    omega
  · intro x hx
    rcases List.mem_append.mp hx with h1 | h1
    · rw [List.eq_of_mem_replicate h1]
      simp only [BASE]
      omega
    · exact h x h1

theorem normalized_shift_left_slices {l : List Nat} (h : Normalized l) (k : Nat) :
    Normalized (shift_left_slices l k) := by
  obtain ⟨hne, hlt, hshape⟩ := h
  have hmem := shift_left_slices_lt hlt k
  unfold shift_left_slices at hmem ⊢
  split
  · exact ⟨by simp, by simp [BASE], Or.inr rfl⟩
  · rename_i hz
    rw [if_neg hz] at hmem
    refine ⟨by simp [hne], hmem, ?_⟩
    rcases hshape with h1 | h1
    · left
      rw [List.getLast?_append, List.getLast?_eq_getLast l hne]
      rw [List.getLast?_eq_getLast l hne] at h1
      simpa using h1
    · exact absurd h1 hz

theorem val_carryTail : ∀ (rest : List Nat) (c : Nat),
    val (carryTail rest c) = val rest + c := by
  intro rest c
  induction rest, c using carryTail.induct with
  | case1 rest => simp [carryTail]
  | case2 c ih =>
    simp only [carryTail, val]
    rw [ih]
    simp only [val, BASE]
    omega
  | case3 r rs c ih =>
    simp only [carryTail, val]
    rw [ih]
    simp only [BASE]
    omega

theorem carryTail_lt : ∀ (rest : List Nat) (c : Nat),
    (∀ x ∈ rest, x < BASE) → ∀ x ∈ carryTail rest c, x < BASE := by
  intro rest c
  induction rest, c using carryTail.induct with
  | case1 rest => intro h x hx; exact h x (by simpa [carryTail] using hx)
  | case2 c ih =>
    intro _ x hx
    simp only [carryTail, List.mem_cons] at hx
    rcases hx with rfl | hx
    · simp only [BASE]
      omega
    · exact ih (by simp) x hx
  | case3 r rs c ih =>
    intro h x hx
    simp only [carryTail, List.mem_cons] at hx
    rcases hx with rfl | hx
    · simp only [BASE]
      omega
    · exact ih (fun z hz => h z (by simp [hz])) x hx

theorem val_mulAddLoop (ai : Nat) : ∀ (b : List Nat), ∀ (res : List Nat) (c : Nat),
    val (mulAddLoop ai b res c) = ai * val b + val res + c := by
  intro b
  induction b with
  | nil =>
    intro res c
    simp [mulAddLoop, val_carryTail]
  | cons bj bs ih =>
    intro res c
    cases res with
    | nil =>
      simp only [mulAddLoop, val_cons, val_nil]
      rw [ih]
      rw [Nat.mul_add ai bj (BASE * val bs), Nat.mul_left_comm ai BASE (val bs)]
      simp only [val_nil, BASE]
      omega
    | cons r rs =>
      simp only [mulAddLoop, val_cons]
      rw [ih]
      rw [Nat.mul_add ai bj (BASE * val bs), Nat.mul_left_comm ai BASE (val bs)]
      simp only [val_nil, BASE]
      omega

theorem mulAddLoop_lt (ai : Nat) : ∀ (b : List Nat), ∀ (res : List Nat) (c : Nat),
    (∀ x ∈ res, x < BASE) → ∀ x ∈ mulAddLoop ai b res c, x < BASE := by
  intro b
  induction b with
  | nil =>
    intro res c h
    exact carryTail_lt res c h
  | cons bj bs ih =>
    intro res c h x hx
    cases res with
    | nil =>
      simp only [mulAddLoop, List.mem_cons] at hx
      rcases hx with rfl | hx
      · simp only [BASE]
        omega
      · exact ih [] _ (by simp) x hx
    | cons r rs =>
      simp only [mulAddLoop, List.mem_cons] at hx
      rcases hx with rfl | hx
      · simp only [BASE]
        omega
      · exact ih rs _ (fun z hz => h z (by simp [hz])) x hx

theorem mulAddLoop_ne_nil (ai : Nat) {b : List Nat} (hb : b ≠ [])
    (res : List Nat) (c : Nat) : mulAddLoop ai b res c ≠ [] := by
  cases b with
  | nil => exact absurd rfl hb
  | cons bj bs => cases res <;> simp [mulAddLoop]

theorem val_mulLoop {b : List Nat} (hb : b ≠ []) : ∀ (a res : List Nat),
    val (mulLoop b a res) = val a * val b + val res := by
  intro a
  induction a with
  | nil => intro res; simp [mulLoop]
  | cons ai arest ih =>
    intro res
    cases hres : mulAddLoop ai b res 0 with
    | nil => exact absurd hres (mulAddLoop_ne_nil ai hb res 0)
    | cons r0 rest =>
      have hv := val_mulAddLoop ai b res 0
      rw [hres, val_cons] at hv
      simp only [mulLoop, hres, val_cons]
      rw [ih rest]
      rw [Nat.add_mul, Nat.mul_assoc]
      simp only [BASE] at *
      omega

theorem mulLoop_lt {b : List Nat} : ∀ (a res : List Nat),
    (∀ x ∈ res, x < BASE) → ∀ x ∈ mulLoop b a res, x < BASE := by
  intro a
  induction a with
  | nil => intro res h; simpa [mulLoop] using h
  | cons ai arest ih =>
    intro res h x hx
    cases hres : mulAddLoop ai b res 0 with
    | nil => simp [mulLoop, hres] at hx
    | cons r0 rest =>
      have hall := mulAddLoop_lt ai b res 0 h
      rw [hres] at hall
      simp only [mulLoop, hres, List.mem_cons] at hx
      rcases hx with rfl | hx
      · exact hall x (by simp)
      · exact ih rest (fun z hz => hall z (by simp [hz])) x hx

theorem mulLoop_ne_nil {b : List Nat} (hb : b ≠ []) {res : List Nat}
    (hres : res ≠ []) (a : List Nat) : mulLoop b a res ≠ [] := by
  cases a with
  | nil => simpa [mulLoop] using hres
  | cons ai arest =>
    cases h : mulAddLoop ai b res 0 with
    | nil => exact absurd h (mulAddLoop_ne_nil ai hb res 0)
    | cons r0 rest => simp [mulLoop, h]

theorem mul_direct_slices_eq_canonRepr {a b : List Nat}
    (ha : ∀ x ∈ a, x < BASE) (hb : ∀ x ∈ b, x < BASE) :
    mul_direct_slices a b = canonRepr (val a * val b) := by
  unfold mul_direct_slices
  split
  · rename_i h
    rcases h with h | h <;> rw [h] <;> simp [canonRepr]
  · rename_i h
    push_neg at h
    have hproduct_ne : mulLoop b a (List.replicate (a.length + b.length) 0) ≠ [] := by
      refine mulLoop_ne_nil h.2 ?_ a
      have : 0 < a.length := List.length_pos.mpr h.1
      simp only [ne_eq, ← List.length_eq_zero, List.length_replicate]
      omega
    have hbnd : ∀ x ∈ mulLoop b a (List.replicate (a.length + b.length) 0), x < BASE := by
      refine mulLoop_lt a _ ?_
      intro x hx
      rw [List.eq_of_mem_replicate hx]
      simp only [BASE]
      omega
    rw [normalize_eq_canonRepr hproduct_ne hbnd, val_mulLoop h.2, val_replicate_zero,
      Nat.add_zero]

theorem val_mul_direct_slices {a b : List Nat}
    (ha : ∀ x ∈ a, x < BASE) (hb : ∀ x ∈ b, x < BASE) :
    val (mul_direct_slices a b) = val a * val b := by
  rw [mul_direct_slices_eq_canonRepr ha hb, val_canonRepr]

theorem canonRepr_lt (n : Nat) : ∀ x ∈ canonRepr n, x < BASE :=
  (normalized_canonRepr n).2.1

theorem canonRepr_ne_nil (n : Nat) : canonRepr n ≠ [] :=
  (normalized_canonRepr n).1

theorem add_slices_lt {a b : List Nat}
    (ha : ∀ x ∈ a, x < BASE) (hb : ∀ x ∈ b, x < BASE) :
    ∀ x ∈ add_slices a b, x < BASE := by
  rw [add_slices_eq_canonRepr ha hb]
  exact canonRepr_lt _

theorem take_append_drop_val (m : Nat) (l : List Nat) :
    val l = val (l.take m) + BASE ^ m * val (l.drop m) := by
  conv_lhs => rw [← List.take_append_drop m l]
  rw [val_append, List.length_take]
  rcases le_or_lt m l.length with h | h
  · rw [min_eq_left h]
  · rw [List.drop_eq_nil_of_le (le_of_lt h)]
    simp

theorem combine_eq_canonRepr (q mid p : List Nat) (m : Nat)
    (hq : ∀ x ∈ q, x < BASE) (hmid : ∀ x ∈ mid, x < BASE)
    (hp : ∀ x ∈ p, x < BASE) :
    add_slices (add_slices (shift_left_slices q (2 * m)) (shift_left_slices mid m)) p
      = canonRepr (BASE ^ (2 * m) * val q + BASE ^ m * val mid + val p) := by
  rw [add_slices_eq_canonRepr (shift_left_slices_lt hq (2 * m))
    (shift_left_slices_lt hmid m)]
  rw [add_slices_eq_canonRepr (canonRepr_lt _) hp]
  rw [val_canonRepr, val_shift_left_slices, val_shift_left_slices]

theorem mul_dc_slices_eq_canonRepr : ∀ (n : Nat), ∀ (a b : List Nat),
    max a.length b.length ≤ n →
    (∀ x ∈ a, x < BASE) → (∀ x ∈ b, x < BASE) →
    mul_dc_slices a b = canonRepr (val a * val b) := by
  intro n
  induction n using Nat.strong_induction_on with
  | _ n ih =>
    intro a b hlen ha hb
    rw [mul_dc_slices.eq_def]
    split
    · rename_i h
      rcases h with h | h <;> subst h <;> simp [canonRepr]
    · rename_i hab
      split
      · exact mul_direct_slices_eq_canonRepr ha hb
      · rename_i hn
        dsimp only
        have h33 : 32 < max a.length b.length := by omega
        have hnn : max a.length b.length ≤ n := hlen
        have ha0 : ∀ x ∈ a.take (max a.length b.length / 2), x < BASE :=
          fun x hx => ha x (List.take_subset _ _ hx)
        have ha1 : ∀ x ∈ a.drop (max a.length b.length / 2), x < BASE :=
          fun x hx => ha x (List.drop_subset _ _ hx)
        have hb0 : ∀ x ∈ b.take (max a.length b.length / 2), x < BASE :=
          fun x hx => hb x (List.take_subset _ _ hx)
        have hb1 : ∀ x ∈ b.drop (max a.length b.length / 2), x < BASE :=
          fun x hx => hb x (List.drop_subset _ _ hx)
        rw [ih (n - 1) (by omega) _ _
            (by simp only [List.length_take]; omega) ha0 hb0,
          ih (n - 1) (by omega) _ _
            (by simp only [List.length_drop]; omega) ha1 hb1,
          ih (n - 1) (by omega) _ _
            (by simp only [List.length_take, List.length_drop]; omega) ha0 hb1,
          ih (n - 1) (by omega) _ _
            (by simp only [List.length_take, List.length_drop]; omega) ha1 hb0]
        rw [add_slices_eq_canonRepr (canonRepr_lt _) (canonRepr_lt _)]
        rw [combine_eq_canonRepr _ _ _ _ (canonRepr_lt _) (canonRepr_lt _)
          (canonRepr_lt _)]
        simp only [val_canonRepr]
        rw [take_append_drop_val (max a.length b.length / 2) a,
          take_append_drop_val (max a.length b.length / 2) b]
        congr 1
        ring

theorem mul_karatsuba_slices_eq_canonRepr : ∀ (n : Nat), ∀ (a b : List Nat),
    max a.length b.length ≤ n →
    (∀ x ∈ a, x < BASE) → (∀ x ∈ b, x < BASE) →
    mul_karatsuba_slices a b = canonRepr (val a * val b) := by
  intro n
  induction n using Nat.strong_induction_on with
  | _ n ih =>
    intro a b hlen ha hb
    rw [mul_karatsuba_slices.eq_def]
    split
    · rename_i h
      rcases h with h | h <;> subst h <;> simp [canonRepr]
    · rename_i hab
      split
      · exact mul_direct_slices_eq_canonRepr ha hb
      · rename_i hn
        dsimp only
        have h33 : 32 < max a.length b.length := by omega
        have ha0 : ∀ x ∈ a.take (max a.length b.length / 2), x < BASE :=
          fun x hx => ha x (List.take_subset _ _ hx)
        have ha1 : ∀ x ∈ a.drop (max a.length b.length / 2), x < BASE :=
          fun x hx => ha x (List.drop_subset _ _ hx)
        have hb0 : ∀ x ∈ b.take (max a.length b.length / 2), x < BASE :=
          fun x hx => hb x (List.take_subset _ _ hx)
        have hb1 : ∀ x ∈ b.drop (max a.length b.length / 2), x < BASE :=
          fun x hx => hb x (List.drop_subset _ _ hx)
        have hsa := add_slices_length_le (a.take (max a.length b.length / 2))
          (a.drop (max a.length b.length / 2))
        have hsb := add_slices_length_le (b.take (max a.length b.length / 2))
          (b.drop (max a.length b.length / 2))
        rw [ih (n - 1) (by omega) _ _
            (by simp only [List.length_take]; omega) ha0 hb0,
          ih (n - 1) (by omega) _ _
            (by simp only [List.length_drop]; omega) ha1 hb1,
          ih (n - 1) (by omega) _ _
            (by simp only [List.length_take, List.length_drop] at hsa hsb ⊢; omega)
            (add_slices_lt ha0 ha1) (add_slices_lt hb0 hb1),
          val_add_slices ha0 ha1, val_add_slices hb0 hb1]
        have hspq : add_slices
            (canonRepr (val (a.take (max a.length b.length / 2)) *
              val (b.take (max a.length b.length / 2))))
            (canonRepr (val (a.drop (max a.length b.length / 2)) *
              val (b.drop (max a.length b.length / 2)))) =
            canonRepr (val (a.take (max a.length b.length / 2)) *
              val (b.take (max a.length b.length / 2)) +
              val (a.drop (max a.length b.length / 2)) *
              val (b.drop (max a.length b.length / 2))) := by
          rw [add_slices_eq_canonRepr (canonRepr_lt _) (canonRepr_lt _),
            val_canonRepr, val_canonRepr]
        rw [hspq]
        have hexpand : (val (a.take (max a.length b.length / 2)) +
              val (a.drop (max a.length b.length / 2))) *
            (val (b.take (max a.length b.length / 2)) +
              val (b.drop (max a.length b.length / 2))) =
            val (a.take (max a.length b.length / 2)) *
              val (b.take (max a.length b.length / 2)) +
            val (a.take (max a.length b.length / 2)) *
              val (b.drop (max a.length b.length / 2)) +
            val (a.drop (max a.length b.length / 2)) *
              val (b.take (max a.length b.length / 2)) +
            val (a.drop (max a.length b.length / 2)) *
              val (b.drop (max a.length b.length / 2)) := by
          ring
        have hmid : sub_slices
            (canonRepr ((val (a.take (max a.length b.length / 2)) +
                val (a.drop (max a.length b.length / 2))) *
              (val (b.take (max a.length b.length / 2)) +
                val (b.drop (max a.length b.length / 2)))))
            (canonRepr (val (a.take (max a.length b.length / 2)) *
                val (b.take (max a.length b.length / 2)) +
              val (a.drop (max a.length b.length / 2)) *
                val (b.drop (max a.length b.length / 2)))) =
            canonRepr (val (a.take (max a.length b.length / 2)) *
                val (b.drop (max a.length b.length / 2)) +
              val (a.drop (max a.length b.length / 2)) *
                val (b.take (max a.length b.length / 2))) := by
          rw [sub_slices_eq_canonRepr (canonRepr_ne_nil _) (canonRepr_lt _)
            (canonRepr_lt _) (by rw [val_canonRepr, val_canonRepr]; omega),
            val_canonRepr, val_canonRepr]
          congr 1
          omega
        rw [hmid]
        rw [combine_eq_canonRepr _ _ _ _ (canonRepr_lt _) (canonRepr_lt _)
          (canonRepr_lt _)]
        simp only [val_canonRepr]
        rw [take_append_drop_val (max a.length b.length / 2) a,
          take_append_drop_val (max a.length b.length / 2) b]
        congr 1
        ring

theorem BASE_eq : BASE = 10 ^ 9 := by norm_num [BASE]

theorem parseDigits_aux (cs : List Char) : ∀ acc : Nat,
    cs.foldl (fun acc c => acc * 10 + (c.toNat - 48)) acc
      = acc * 10 ^ cs.length + parseDigits cs := by
  induction cs with
  | nil => intro acc; simp [parseDigits]
  | cons c cs ih =>
    intro acc
    simp only [parseDigits, List.foldl_cons, List.length_cons]
    rw [ih, ih]
    ring

theorem parseDigits_cons (c : Char) (cs : List Char) :
    parseDigits (c :: cs) = (c.toNat - 48) * 10 ^ cs.length + parseDigits cs := by
  show (c :: cs).foldl (fun acc c => acc * 10 + (c.toNat - 48)) 0 = _
  rw [List.foldl_cons, parseDigits_aux]
  ring

theorem parseDigits_append (xs ys : List Char) :
    parseDigits (xs ++ ys) = parseDigits xs * 10 ^ ys.length + parseDigits ys := by
  show (xs ++ ys).foldl _ 0 = _
  rw [List.foldl_append, parseDigits_aux]
  rfl

theorem parseDigits_lt {cs : List Char} (h : ∀ c ∈ cs, isDigitChar c) :
    parseDigits cs < 10 ^ cs.length := by
  induction cs with
  | nil => simp [parseDigits]
  | cons c cs ih =>
    have hc : c.toNat - 48 ≤ 9 := by
      have := h c (by simp)
      simp [isDigitChar] at this
      omega
    have hrest := ih (fun z hz => h z (by simp [hz]))
    rw [parseDigits_cons, List.length_cons]
    calc (c.toNat - 48) * 10 ^ cs.length + parseDigits cs
        < (c.toNat - 48) * 10 ^ cs.length + 10 ^ cs.length := by omega
      _ = (c.toNat - 48 + 1) * 10 ^ cs.length := by ring
      _ ≤ 10 * 10 ^ cs.length := Nat.mul_le_mul_right _ (by omega)
      _ = 10 ^ (cs.length + 1) := by ring

theorem parseDigits_eq_ofDigits (cs : List Char) :
    parseDigits cs = Nat.ofDigits 10 ((cs.map (fun c => c.toNat - 48)).reverse) := by
  induction cs with
  | nil => simp [parseDigits, Nat.ofDigits]
  | cons c cs ih =>
    rw [parseDigits_cons, ih]
    simp only [List.map_cons, List.reverse_cons]
    rw [Nat.ofDigits_append]
    simp [Nat.ofDigits]
    ring

theorem digits_length_le {b n j : Nat} (hb : 1 < b) (h : n < b ^ j) :
    (Nat.digits b n).length ≤ j := by
  rcases Nat.eq_zero_or_pos n with rfl | hn
  · simp
  · rw [Nat.digits_len b n hb (by omega)]
    have := (Nat.lt_pow_iff_log_lt hb (by omega)).mp h
    omega

theorem stripPlus_length_le (cs : List Char) : (stripPlus cs).length ≤ cs.length := by
  unfold stripPlus
  split
  · cases cs <;> simp
  · exact le_refl _

theorem rustParseU32_lt_BASE {cs : List Char} (h : cs.length ≤ 9) :
    rustParseU32 cs < BASE := by
  unfold rustParseU32
  split
  · rename_i hok
    unfold u32ParseOk at hok
    simp only [Bool.and_eq_true, List.all_eq_true, decide_eq_true_eq] at hok
    have hlt := parseDigits_lt hok.1.2
    have hle := stripPlus_length_le cs
    calc parseDigits (stripPlus cs) < 10 ^ (stripPlus cs).length := hlt
      _ ≤ 10 ^ 9 := Nat.pow_le_pow_right (by omega) (by omega)
      _ = BASE := BASE_eq.symm
  · simp only [BASE]
    omega

theorem stripPlus_of_digits {cs : List Char} (hne : cs ≠ [])
    (hd : ∀ c ∈ cs, isDigitChar c) : stripPlus cs = cs := by
  unfold stripPlus
  rw [if_neg]
  cases cs with
  | nil => exact absurd rfl hne
  | cons c cs =>
    intro hc
    simp only [List.head?_cons, Option.some.injEq] at hc
    have := hd c (by simp)
    rw [hc] at this
    simp [isDigitChar] at this

theorem rustParseU32_of_digits {cs : List Char} (hne : cs ≠ [])
    (hd : ∀ c ∈ cs, isDigitChar c) (hlen : cs.length ≤ 9) :
    rustParseU32 cs = parseDigits cs := by
  unfold rustParseU32 u32ParseOk
  rw [stripPlus_of_digits hne hd]
  rw [if_pos]
  simp only [Bool.and_eq_true, List.all_eq_true, decide_eq_true_eq]
  refine ⟨⟨by simpa using hne, hd⟩, ?_⟩
  calc parseDigits cs < 10 ^ cs.length := parseDigits_lt hd
    _ ≤ 10 ^ 9 := Nat.pow_le_pow_right (by omega) hlen
    _ < 4294967296 := by norm_num

theorem chunkLoop_lt (s : List Char) : ∀ x ∈ chunkLoop s, x < BASE := by
  induction s using chunkLoop.induct with
  | case1 s h => simp [chunkLoop, h]
  | case2 s h cmin ih =>
    intro x hx
    rw [chunkLoop.eq_def, dif_neg h] at hx
    simp only [List.mem_cons] at hx
    rcases hx with rfl | hx
    · refine rustParseU32_lt_BASE ?_
      simp only [List.length_drop]
      omega
    · exact ih x hx

theorem chunkLoop_ne_nil {s : List Char} (h : s ≠ []) : chunkLoop s ≠ [] := by
  rw [chunkLoop.eq_def, dif_neg (by simpa using h)]
  simp

theorem val_chunkLoop {s : List Char} (hd : ∀ c ∈ s, isDigitChar c) :
    val (chunkLoop s) = parseDigits s := by
  induction s using chunkLoop.induct with
  | case1 s h =>
    have : s = [] := by simpa using h
    subst this
    simp [chunkLoop, parseDigits]
  | case2 s h cmin ih =>
    have hne : s ≠ [] := by simpa using h
    have hlen : 0 < s.length := List.length_pos.mpr hne
    rw [chunkLoop.eq_def, dif_neg h, val_cons]
    have hchunk_digits : ∀ c ∈ s.drop (s.length - min 9 s.length), isDigitChar c :=
      fun c hc => hd c (List.drop_subset _ _ hc)
    have hpre_digits : ∀ c ∈ s.take (s.length - min 9 s.length), isDigitChar c :=
      fun c hc => hd c (List.take_subset _ _ hc)
    have hchunk_ne : s.drop (s.length - min 9 s.length) ≠ [] := by
      simp only [ne_eq, List.drop_eq_nil_iff_le, not_le]
      omega
    have hchunk_len : (s.drop (s.length - min 9 s.length)).length ≤ 9 := by
      simp only [List.length_drop]
      omega
    rw [rustParseU32_of_digits hchunk_ne hchunk_digits hchunk_len, ih hpre_digits]
    conv_rhs => rw [← List.take_append_drop (s.length - min 9 s.length) s]
    rw [parseDigits_append]
    rcases le_or_lt s.length 9 with h9 | h9
    · have : s.length - min 9 s.length = 0 := by omega
      rw [this]
      simp [parseDigits]
    · have : (s.drop (s.length - min 9 s.length)).length = 9 := by
        simp only [List.length_drop]
        omega
      rw [this, ← BASE_eq]
      ring

theorem from_str_digits_eq_canonRepr {s : List Char} (hd : ∀ c ∈ s, isDigitChar c) :
    (from_str s).digits = canonRepr (parseDigits s) := by
  unfold from_str
  split
  · rename_i h
    have : s = [] := by simpa using h
    subst this
    simp [parseDigits, canonRepr]
  · rename_i h
    have hne : s ≠ [] := by simpa using h
    dsimp only
    rw [normalize_eq_canonRepr (chunkLoop_ne_nil hne) (chunkLoop_lt s),
      val_chunkLoop hd]
    rw [if_neg (by simpa using canonRepr_ne_nil (parseDigits s))]

theorem normalized_from_str (s : List Char) : Normalized (from_str s).digits := by
  unfold from_str
  split
  · exact ⟨by simp, by simp [BASE], Or.inr rfl⟩
  · rename_i h
    have hne : s ≠ [] := by simpa using h
    dsimp only
    split
    · exact ⟨by simp, by simp [BASE], Or.inr rfl⟩
    · exact normalized_normalize (chunkLoop_ne_nil hne) (chunkLoop_lt s)

theorem decimalChars_zero : decimalChars 0 = [] := by simp [decimalChars]

theorem decimalChars_length_le {n j : Nat} (h : n < 10 ^ j) :
    (decimalChars n).length ≤ j := by
  unfold decimalChars
  rw [List.length_map, List.length_reverse]
  exact digits_length_le (by omega) h

theorem natToString_of_pos {n : Nat} (h : 0 < n) : natToString n = decimalChars n := by
  unfold natToString
  rw [if_neg (by omega)]

theorem pad9_eq (d : Nat) :
    pad9 d = List.replicate (9 - (decimalChars d).length) '0' ++ decimalChars d := by
  unfold pad9
  rcases Nat.eq_zero_or_pos d with rfl | hd
  · rw [show natToString 0 = ['0'] from rfl, decimalChars_zero]
    show List.replicate 8 '0' ++ ['0'] = List.replicate 9 '0' ++ []
    rw [List.append_nil, show (9 : Nat) = 8 + 1 from rfl, List.replicate_add]
    rfl
  · rw [natToString_of_pos hd]

theorem decimalChars_split {hd M j : Nat} (hhd : 0 < hd) (hM : M < 10 ^ j) :
    decimalChars (M + 10 ^ j * hd) =
      decimalChars hd ++
        (List.replicate (j - (decimalChars M).length) '0' ++ decimalChars M) := by
  have hlen : (Nat.digits 10 M).length ≤ j := digits_length_le (by omega) hM
  have key := Nat.digits_append_zeroes_append_digits
    (b := 10) (k := j - (Nat.digits 10 M).length) (m := hd) (n := M) (by omega) hhd
  have hexp : (Nat.digits 10 M).length + (j - (Nat.digits 10 M).length) = j := by
    omega
  rw [hexp] at key
  unfold decimalChars
  rw [← key]
  rw [List.reverse_append, List.reverse_append, List.map_append, List.map_append,
    List.reverse_replicate, List.map_replicate]
  congr 1
  rw [List.length_map, List.length_reverse]

theorem val_reverse_lt_pow {rl : List Nat} (h : ∀ x ∈ rl, x < BASE) :
    val rl.reverse < 10 ^ (9 * rl.length) := by
  have h1 : val rl.reverse < BASE ^ rl.reverse.length :=
    val_lt_pow (fun x hx => h x (List.mem_reverse.mp hx))
  rw [List.length_reverse, BASE_eq, ← pow_mul] at h1
  exact h1

theorem padded_render : ∀ (rl : List Nat), (∀ x ∈ rl, x < BASE) →
    List.replicate (9 * rl.length - (decimalChars (val rl.reverse)).length) '0'
        ++ decimalChars (val rl.reverse) = (rl.map pad9).flatten := by
  intro rl
  induction rl with
  | nil => simp [decimalChars_zero]
  | cons d rest ih =>
    intro h
    have hrest : ∀ x ∈ rest, x < BASE := fun z hz => h z (by simp [hz])
    have hd9 : d < 10 ^ 9 := by
      have := h d (by simp)
      rwa [BASE_eq] at this
    have hM : val rest.reverse < 10 ^ (9 * rest.length) := val_reverse_lt_pow hrest
    have hlenM : (decimalChars (val rest.reverse)).length ≤ 9 * rest.length :=
      decimalChars_length_le hM
    have hNval : val ((d :: rest).reverse) =
        val rest.reverse + 10 ^ (9 * rest.length) * d := by
      rw [List.reverse_cons, val_append, List.length_reverse, BASE_eq, ← pow_mul]
      simp [val]
    rw [List.map_cons, List.flatten_cons, ← ih hrest, hNval]
    rcases Nat.eq_zero_or_pos d with rfl | hdpos
    · rw [mul_zero, add_zero]
      have hp0 : pad9 0 = List.replicate 9 '0' := by
        rw [pad9_eq, decimalChars_zero]
        simp
      rw [hp0]
      rw [List.length_cons]
      have harith2 : 9 * (rest.length + 1) -
          (decimalChars (val rest.reverse)).length =
          9 + (9 * rest.length - (decimalChars (val rest.reverse)).length) := by
        omega
      rw [harith2, List.replicate_add, List.append_assoc]
    · rw [decimalChars_split hdpos hM, pad9_eq]
      have hlend : (decimalChars d).length ≤ 9 := decimalChars_length_le hd9
      rw [List.length_cons]
      have hlen_all : (decimalChars d ++
          (List.replicate (9 * rest.length - (decimalChars (val rest.reverse)).length) '0'
            ++ decimalChars (val rest.reverse))).length =
          (decimalChars d).length + 9 * rest.length := by
        simp only [List.length_append, List.length_replicate]
        omega
      rw [hlen_all]
      have harith : 9 * (rest.length + 1) - ((decimalChars d).length + 9 * rest.length)
          = 9 - (decimalChars d).length := by
        omega
      rw [harith]
      rw [← List.append_assoc, ← List.append_assoc]

theorem canonRepr_ne_single_zero {n : Nat} (h : n ≠ 0) : canonRepr n ≠ [0] := by
  intro hc
  have := val_canonRepr n
  rw [hc] at this
  simp [val] at this
  exact h this.symm

theorem to_string_eq_decimalChars {l : List Nat} (hnorm : Normalized l)
    (hv : val l ≠ 0) : to_string ⟨l⟩ = decimalChars (val l) := by
  obtain ⟨hne, hlt, hshape⟩ := hnorm
  have hl0 : l ≠ [0] := by
    intro hc
    rw [hc] at hv
    simp [val] at hv
  rcases hshape with hlast | hlast
  swap
  · exact absurd hlast hl0
  unfold to_string
  rw [if_neg (by simp [hne, hl0])]
  dsimp only
  cases hrev : l.reverse with
  | nil => exact absurd (by simpa using hrev) hne
  | cons hd tl =>
    dsimp only
    have hd_last : l.getLast? = some hd := by
      rw [← List.head?_reverse, hrev, List.head?_cons]
    have hd_ne : hd ≠ 0 := by
      intro hc
      rw [hc] at hd_last
      exact hlast hd_last
    have hrl : ∀ x ∈ hd :: tl, x < BASE := by
      rw [← hrev]
      intro x hx
      exact hlt x (List.mem_reverse.mp hx)
    have htl : ∀ x ∈ tl, x < BASE := fun z hz => hrl z (by simp [hz])
    have hlval : val l = val ((hd :: tl).reverse) := by
      rw [← hrev, List.reverse_reverse]
    have hM : val tl.reverse < 10 ^ (9 * tl.length) := val_reverse_lt_pow htl
    rw [hlval, List.reverse_cons, val_append, List.length_reverse, BASE_eq,
      ← pow_mul]
    have hsplit : val tl.reverse + 10 ^ (9 * tl.length) * val [hd] =
        val tl.reverse + 10 ^ (9 * tl.length) * hd := by
      simp [val]
    rw [hsplit, decimalChars_split (by omega) hM, natToString_of_pos (by omega),
      padded_render tl htl]

theorem to_string_canonRepr (n : Nat) : to_string ⟨canonRepr n⟩ = natToString n := by
  rcases Nat.eq_zero_or_pos n with rfl | hn
  · rfl
  · rw [to_string_eq_decimalChars (normalized_canonRepr n)
      (by rw [val_canonRepr]; omega), val_canonRepr, natToString_of_pos hn]

theorem digitChar_roundtrip {c : Char} (h : isDigitChar c = true) :
    Char.ofNat (48 + (c.toNat - 48)) = c := by
  simp only [isDigitChar, Bool.and_eq_true, decide_eq_true_eq] at h
  rw [Nat.add_sub_cancel' h.1]
  exact Char.ofNat_toNat c

theorem head_digit_ne_zero {c : Char} (hdig : isDigitChar c = true) (h0 : c ≠ '0') :
    c.toNat - 48 ≠ 0 := by
  simp only [isDigitChar, Bool.and_eq_true, decide_eq_true_eq] at hdig
  intro hc
  apply h0
  have h48 : c.toNat = 48 := by omega
  calc c = Char.ofNat c.toNat := (Char.ofNat_toNat c).symm
    _ = '0' := by rw [h48]

theorem parseDigits_pos {c : Char} {rest : List Char} (hdig : isDigitChar c)
    (h0 : c ≠ '0') : 0 < parseDigits (c :: rest) := by
  rw [parseDigits_cons]
  have h1 := head_digit_ne_zero hdig h0
  have h2 : 1 * 10 ^ rest.length ≤ (c.toNat - 48) * 10 ^ rest.length :=
    Nat.mul_le_mul_right _ (by omega)
  have h3 : 0 < 10 ^ rest.length := pow_pos (by norm_num) _
  omega

theorem decimalChars_parseDigits {cs : List Char} (hne : cs ≠ [])
    (hd : ∀ c ∈ cs, isDigitChar c) (h0 : cs.head? ≠ some '0') :
    decimalChars (parseDigits cs) = cs := by
  have hLlt : ∀ l ∈ (cs.map (fun c => c.toNat - 48)).reverse, l < 10 := by
    intro l hl
    rw [List.mem_reverse, List.mem_map] at hl
    obtain ⟨c, hc, rfl⟩ := hl
    have := hd c hc
    simp only [isDigitChar, Bool.and_eq_true, decide_eq_true_eq] at this
    omega
  have hLne : (cs.map (fun c => c.toNat - 48)).reverse ≠ [] := by
    simpa using hne
  obtain ⟨c, rest, rfl⟩ : ∃ c rest, cs = c :: rest := by
    cases cs with
    | nil => exact absurd rfl hne
    | cons c rest => exact ⟨c, rest, rfl⟩
  have hc0 : c ≠ '0' := by
    intro hc
    exact h0 (by rw [hc]; rfl)
  have hLlast : ∀ h : ((c :: rest).map (fun c => c.toNat - 48)).reverse ≠ [],
      (((c :: rest).map (fun c => c.toNat - 48)).reverse).getLast h ≠ 0 := by
    intro h
    have h1 : (((c :: rest).map (fun c => c.toNat - 48)).reverse).getLast? =
        some (c.toNat - 48) := by
      rw [List.getLast?_reverse]
      simp
    rw [List.getLast?_eq_getLast _ h] at h1
    rw [Option.some.inj h1]
    exact head_digit_ne_zero (hd c (by simp)) hc0
  have hdig : Nat.digits 10
      (Nat.ofDigits 10 (((c :: rest).map (fun c => c.toNat - 48)).reverse)) =
      ((c :: rest).map (fun c => c.toNat - 48)).reverse :=
    Nat.digits_ofDigits 10 (by omega) _ hLlt hLlast
  rw [parseDigits_eq_ofDigits]
  unfold decimalChars
  rw [hdig, List.reverse_reverse, List.map_map]
  conv_rhs => rw [← List.map_id (c :: rest)]
  exact List.map_congr_left (fun a ha => digitChar_roundtrip (hd a ha))

theorem parseDigits_ne_zero_of_canonical {c : Char} {rest : List Char}
    (hd : ∀ x ∈ c :: rest, isDigitChar x) (h0 : c ≠ '0') :
    parseDigits (c :: rest) ≠ 0 := by
  have h1 : 0 < parseDigits (c :: rest) := parseDigits_pos (hd c (by simp)) h0
  omega

theorem chunkLoop_eq_map (s : List Char) :
    chunkLoop s = (chunkList s).map rustParseU32 := by
  induction s using chunkList.induct with
  | case1 s h => rw [chunkLoop.eq_def, chunkList.eq_def, dif_pos h, dif_pos h]; rfl
  | case2 s h cmin ih =>
    rw [chunkLoop.eq_def, chunkList.eq_def, dif_neg h, dif_neg h]
    dsimp only
    rw [List.map_cons, ih]

theorem chunkList_lengths (s : List Char) :
    ∀ c ∈ chunkList s, 1 ≤ c.length ∧ c.length ≤ 9 := by
  induction s using chunkList.induct with
  | case1 s h => rw [chunkList.eq_def, dif_pos h]; simp
  | case2 s h cmin ih =>
    have hlen : 0 < s.length := by
      cases s with
      | nil => simp at h
      | cons x xs => simp
    rw [chunkList.eq_def, dif_neg h]
    intro c hc
    simp only [List.mem_cons] at hc
    rcases hc with rfl | hc
    · constructor <;> simp only [List.length_drop] <;> omega
    · exact ih c hc

theorem chunkList_flatten (s : List Char) : ((chunkList s).reverse).flatten = s := by
  induction s using chunkList.induct with
  | case1 s h =>
    have : s = [] := by simpa using h
    rw [chunkList.eq_def, dif_pos h, this]
    rfl
  | case2 s h cmin ih =>
    rw [chunkList.eq_def, dif_neg h]
    dsimp only
    rw [List.reverse_cons, List.flatten_append, ih]
    simp only [List.flatten_cons, List.flatten_nil, List.append_nil]
    exact List.take_append_drop _ s

theorem rustParseU32_of_not_ok {cs : List Char} (h : ¬ u32ParseOk cs) :
    rustParseU32 cs = 0 := by
  unfold rustParseU32
  rw [if_neg h]

theorem u32ParseOk_char_iff {cs : List Char} (h : cs.length ≤ 9) :
    u32ParseOk cs = true ↔
      (stripPlus cs ≠ [] ∧ ∀ c ∈ stripPlus cs, isDigitChar c) := by
  unfold u32ParseOk
  simp only [Bool.and_eq_true, List.all_eq_true, decide_eq_true_eq,
    Bool.not_eq_true']
  constructor
  · intro hx
    exact ⟨by simpa using hx.1.1, hx.1.2⟩
  · intro hx
    refine ⟨⟨by simpa using hx.1, hx.2⟩, ?_⟩
    have hlt := parseDigits_lt hx.2
    have hlen := stripPlus_length_le cs
    calc parseDigits (stripPlus cs) < 10 ^ (stripPlus cs).length := hlt
      _ ≤ 10 ^ 9 := Nat.pow_le_pow_right (by omega) (by omega)
      _ < 4294967296 := by norm_num

theorem parseDigits_all_zeros {zs : List Char} (h : ∀ c ∈ zs, c = '0') :
    parseDigits zs = 0 := by
  induction zs with
  | nil => rfl
  | cons c cs ih =>
    rw [parseDigits_cons, h c (by simp), ih (fun z hz => h z (by simp [hz]))]
    simp [show ('0').toNat = 48 from rfl]

theorem parseDigits_dropWhile_zeros (s : List Char) :
    parseDigits s = parseDigits (s.dropWhile (fun c => c = '0')) := by
  conv_lhs => rw [← List.takeWhile_append_dropWhile (fun c => decide (c = '0')) s]
  rw [parseDigits_append]
  have hz : ∀ c ∈ s.takeWhile (fun c => decide (c = '0')), c = '0' := by
    intro c hc
    have := List.all_takeWhile (l := s) (p := fun c => decide (c = '0'))
    rw [List.all_eq_true] at this
    exact of_decide_eq_true (this c hc)
  rw [parseDigits_all_zeros hz]
  simp

theorem BigInt_ext {x y : BigInt} (h : x.digits = y.digits) : x = y := by
  cases x
  cases y
  cases h
  rfl

/-- Claim C1: for every pair of BigInt values a and b (non-empty, normalized
limb sequences), the three multiplication entry points agree: mul_direct,
mul_dc and mul_karatsuba return the same limb sequence. -/
theorem c1_mul_algorithms_agree (a b : BigInt)
    (ha : Normalized a.digits) (hb : Normalized b.digits) :
    mul_direct a b = mul_dc a b ∧ mul_dc a b = mul_karatsuba a b := by
  have h1 := mul_direct_slices_eq_canonRepr ha.2.1 hb.2.1
  have h2 := mul_dc_slices_eq_canonRepr (max a.digits.length b.digits.length)
    a.digits b.digits (le_refl _) ha.2.1 hb.2.1
  have h3 := mul_karatsuba_slices_eq_canonRepr (max a.digits.length b.digits.length)
    a.digits b.digits (le_refl _) ha.2.1 hb.2.1
  constructor
  · exact BigInt_ext (by rw [mul_direct, mul_dc]; dsimp only; rw [h1, h2])
  · exact BigInt_ext (by rw [mul_dc, mul_karatsuba]; dsimp only; rw [h2, h3])

theorem c1_witness :
    Normalized (BigInt.mk [2]).digits ∧ Normalized (BigInt.mk [3]).digits ∧
      (mul_direct ⟨[2]⟩ ⟨[3]⟩ = mul_dc ⟨[2]⟩ ⟨[3]⟩ ∧
        mul_dc ⟨[2]⟩ ⟨[3]⟩ = mul_karatsuba ⟨[2]⟩ ⟨[3]⟩) :=
  ⟨by decide, by decide, c1_mul_algorithms_agree ⟨[2]⟩ ⟨[3]⟩ (by decide) (by decide)⟩

/-- Claim C2: for every pair of limb sequences a and b whose limbs are all
below BASE, mul_direct_slices returns a normalized limb sequence whose
represented value equals the product of the values of a and b. -/
theorem c2_mul_direct_correct (a b : List Nat)
    (ha : ∀ x ∈ a, x < BASE) (hb : ∀ x ∈ b, x < BASE) :
    Normalized (mul_direct_slices a b) ∧
      val (mul_direct_slices a b) = val a * val b := by
  rw [mul_direct_slices_eq_canonRepr ha hb]
  exact ⟨normalized_canonRepr _, val_canonRepr _⟩

theorem c2_witness :
    (∀ x ∈ [2], x < BASE) ∧ (∀ x ∈ [3], x < BASE) ∧
      (Normalized (mul_direct_slices [2] [3]) ∧
        val (mul_direct_slices [2] [3]) = val [2] * val [3]) :=
  ⟨by decide, by decide, c2_mul_direct_correct [2] [3] (by decide) (by decide)⟩

/-- Claim C3: for every string s that is either the single character 0 or a
non-empty sequence of decimal digit characters not starting with a zero,
rendering the parse of s gives back s. -/
theorem c3_roundtrip (s : List Char)
    (h : s = ['0'] ∨ (s ≠ [] ∧ (∀ c ∈ s, isDigitChar c) ∧ s.head? ≠ some '0')) :
    to_string (from_str s) = s := by
  rcases h with rfl | ⟨hne, hdig, h0⟩
  · have h1 : (from_str ['0']).digits = canonRepr (parseDigits ['0']) :=
      from_str_digits_eq_canonRepr (by decide)
    have h2 : parseDigits ['0'] = 0 := by decide
    rw [h2] at h1
    rw [BigInt_ext (y := ⟨[0]⟩) h1]
    rfl
  · have h1 : (from_str s).digits = canonRepr (parseDigits s) :=
      from_str_digits_eq_canonRepr hdig
    rw [BigInt_ext (y := ⟨canonRepr (parseDigits s)⟩) h1, to_string_canonRepr]
    obtain ⟨c, rest, rfl⟩ : ∃ c rest, s = c :: rest := by
      cases s with
      | nil => exact absurd rfl hne
      | cons c rest => exact ⟨c, rest, rfl⟩
    have hc0 : c ≠ '0' := fun hc => h0 (by rw [hc]; rfl)
    have hpos : 0 < parseDigits (c :: rest) :=
      parseDigits_pos (hdig c (by simp)) hc0
    rw [natToString_of_pos hpos]
    exact decimalChars_parseDigits hne hdig h0

theorem c3_witness :
    ((['1', '7'] : List Char) = ['0'] ∨
      ((['1', '7'] : List Char) ≠ [] ∧ (∀ c ∈ ['1', '7'], isDigitChar c) ∧
        (['1', '7'] : List Char).head? ≠ some '0')) ∧
      to_string (from_str ['1', '7']) = ['1', '7'] :=
  ⟨by decide, c3_roundtrip ['1', '7'] (by decide)⟩

/-- Claim C4: in every recursive step of mul_karatsuba_slices (operand
length above the threshold), the value of u = (a0+a1)(b0+b1) is at least
the value of p + q = a0 b0 + a1 b1, so the subtraction meets its
precondition and mid represents exactly the cross term a0 b1 + a1 b0. -/
theorem c4_karatsuba_subtraction_safe (a b : List Nat)
    (hne : ¬(a = [] ∨ b = [])) (hbig : 32 < max a.length b.length)
    (ha : ∀ x ∈ a, x < BASE) (hb : ∀ x ∈ b, x < BASE) :
    val (add_slices
        (mul_karatsuba_slices (a.take (max a.length b.length / 2))
          (b.take (max a.length b.length / 2)))
        (mul_karatsuba_slices (a.drop (max a.length b.length / 2))
          (b.drop (max a.length b.length / 2)))) ≤
      val (mul_karatsuba_slices
        (add_slices (a.take (max a.length b.length / 2))
          (a.drop (max a.length b.length / 2)))
        (add_slices (b.take (max a.length b.length / 2))
          (b.drop (max a.length b.length / 2)))) ∧
    val (sub_slices
        (mul_karatsuba_slices
          (add_slices (a.take (max a.length b.length / 2))
            (a.drop (max a.length b.length / 2)))
          (add_slices (b.take (max a.length b.length / 2))
            (b.drop (max a.length b.length / 2))))
        (add_slices
          (mul_karatsuba_slices (a.take (max a.length b.length / 2))
            (b.take (max a.length b.length / 2)))
          (mul_karatsuba_slices (a.drop (max a.length b.length / 2))
            (b.drop (max a.length b.length / 2))))) =
      val (a.take (max a.length b.length / 2)) *
          val (b.drop (max a.length b.length / 2)) +
        val (a.drop (max a.length b.length / 2)) *
          val (b.take (max a.length b.length / 2)) := by
  have ha0 : ∀ x ∈ a.take (max a.length b.length / 2), x < BASE :=
    fun x hx => ha x (List.take_subset _ _ hx)
  have ha1 : ∀ x ∈ a.drop (max a.length b.length / 2), x < BASE :=
    fun x hx => ha x (List.drop_subset _ _ hx)
  have hb0 : ∀ x ∈ b.take (max a.length b.length / 2), x < BASE :=
    fun x hx => hb x (List.take_subset _ _ hx)
  have hb1 : ∀ x ∈ b.drop (max a.length b.length / 2), x < BASE :=
    fun x hx => hb x (List.drop_subset _ _ hx)
  have hp := mul_karatsuba_slices_eq_canonRepr
    (max (a.take (max a.length b.length / 2)).length
      (b.take (max a.length b.length / 2)).length) _ _ (le_refl _) ha0 hb0
  have hq := mul_karatsuba_slices_eq_canonRepr
    (max (a.drop (max a.length b.length / 2)).length
      (b.drop (max a.length b.length / 2)).length) _ _ (le_refl _) ha1 hb1
  have hu := mul_karatsuba_slices_eq_canonRepr
    (max (add_slices (a.take (max a.length b.length / 2))
        (a.drop (max a.length b.length / 2))).length
      (add_slices (b.take (max a.length b.length / 2))
        (b.drop (max a.length b.length / 2))).length) _ _ (le_refl _)
    (add_slices_lt ha0 ha1) (add_slices_lt hb0 hb1)
  rw [hp, hq, hu]
  rw [add_slices_eq_canonRepr (canonRepr_lt _) (canonRepr_lt _)]
  simp only [val_canonRepr, val_add_slices ha0 ha1, val_add_slices hb0 hb1]
  have hexp : (val (a.take (max a.length b.length / 2)) +
        val (a.drop (max a.length b.length / 2))) *
      (val (b.take (max a.length b.length / 2)) +
        val (b.drop (max a.length b.length / 2))) =
      val (a.take (max a.length b.length / 2)) *
        val (b.take (max a.length b.length / 2)) +
      val (a.take (max a.length b.length / 2)) *
        val (b.drop (max a.length b.length / 2)) +
      val (a.drop (max a.length b.length / 2)) *
        val (b.take (max a.length b.length / 2)) +
      val (a.drop (max a.length b.length / 2)) *
        val (b.drop (max a.length b.length / 2)) := by ring
  constructor
  · omega
  · rw [sub_slices_eq_canonRepr (canonRepr_ne_nil _) (canonRepr_lt _)
      (canonRepr_lt _) (by simp only [val_canonRepr]; omega)]
    simp only [val_canonRepr]
    omega

theorem c4_witness :
    (¬((List.replicate 32 0 ++ [1]) = [] ∨ (List.replicate 32 0 ++ [1]) = [])) ∧
    (32 < max (List.replicate 32 0 ++ [1]).length
      (List.replicate 32 0 ++ [1]).length) ∧
    (∀ x ∈ List.replicate 32 0 ++ [1], x < BASE) ∧
    (val (add_slices
        (mul_karatsuba_slices
          ((List.replicate 32 0 ++ [1]).take
            (max (List.replicate 32 0 ++ [1]).length
              (List.replicate 32 0 ++ [1]).length / 2))
          ((List.replicate 32 0 ++ [1]).take
            (max (List.replicate 32 0 ++ [1]).length
              (List.replicate 32 0 ++ [1]).length / 2)))
        (mul_karatsuba_slices
          ((List.replicate 32 0 ++ [1]).drop
            (max (List.replicate 32 0 ++ [1]).length
              (List.replicate 32 0 ++ [1]).length / 2))
          ((List.replicate 32 0 ++ [1]).drop
            (max (List.replicate 32 0 ++ [1]).length
              (List.replicate 32 0 ++ [1]).length / 2)))) ≤
      val (mul_karatsuba_slices
        (add_slices
          ((List.replicate 32 0 ++ [1]).take
            (max (List.replicate 32 0 ++ [1]).length
              (List.replicate 32 0 ++ [1]).length / 2))
          ((List.replicate 32 0 ++ [1]).drop
            (max (List.replicate 32 0 ++ [1]).length
              (List.replicate 32 0 ++ [1]).length / 2)))
        (add_slices
          ((List.replicate 32 0 ++ [1]).take
            (max (List.replicate 32 0 ++ [1]).length
              (List.replicate 32 0 ++ [1]).length / 2))
          ((List.replicate 32 0 ++ [1]).drop
            (max (List.replicate 32 0 ++ [1]).length
              (List.replicate 32 0 ++ [1]).length / 2))))) :=
  ⟨by decide, by decide, by decide,
    (c4_karatsuba_subtraction_safe (List.replicate 32 0 ++ [1])
      (List.replicate 32 0 ++ [1]) (by decide) (by decide) (by decide)
      (by decide)).1⟩

/-- Claim C5: for limb sequences with limbs below BASE (non-empty per the
data model) and value of a at least value of b, sub_slices returns a
normalized sequence representing value(a) minus value(b); in particular
subtracting the parse of 1 from the parse of 1000000000 renders as
999999999. -/
theorem c5_sub_correct (a b : List Nat) (hne : a ≠ [])
    (ha : ∀ x ∈ a, x < BASE) (hb : ∀ x ∈ b, x < BASE) (hle : val b ≤ val a) :
    (Normalized (sub_slices a b) ∧ val (sub_slices a b) = val a - val b) ∧
    to_string (sub (from_str ['1', '0', '0', '0', '0', '0', '0', '0', '0', '0'])
        (from_str ['1'])) = ['9', '9', '9', '9', '9', '9', '9', '9', '9'] := by
  constructor
  · rw [sub_slices_eq_canonRepr hne ha hb hle]
    exact ⟨normalized_canonRepr _, val_canonRepr _⟩
  · have h1 : (from_str ['1', '0', '0', '0', '0', '0', '0', '0', '0', '0']).digits
        = canonRepr 1000000000 := by
      rw [from_str_digits_eq_canonRepr (by decide),
        show parseDigits ['1', '0', '0', '0', '0', '0', '0', '0', '0', '0']
          = 1000000000 from by decide]
    have h2 : (from_str ['1']).digits = canonRepr 1 := by
      rw [from_str_digits_eq_canonRepr (by decide),
        show parseDigits ['1'] = 1 from by decide]
    have h3 : sub (from_str ['1', '0', '0', '0', '0', '0', '0', '0', '0', '0'])
        (from_str ['1']) = ⟨canonRepr 999999999⟩ := by
      apply BigInt_ext
      show sub_slices (from_str ['1', '0', '0', '0', '0', '0', '0', '0', '0', '0']).digits
        (from_str ['1']).digits = canonRepr 999999999
      rw [h1, h2, sub_slices_eq_canonRepr (canonRepr_ne_nil _) (canonRepr_lt _)
        (canonRepr_lt _) (by simp only [val_canonRepr]; norm_num)]
      simp only [val_canonRepr]
    rw [h3, to_string_canonRepr, natToString_of_pos (by norm_num)]
    rw [show (999999999 : Nat)
      = parseDigits ['9', '9', '9', '9', '9', '9', '9', '9', '9'] from by decide]
    exact decimalChars_parseDigits (by decide) (by decide) (by decide)

theorem c5_witness :
    ([7] : List Nat) ≠ [] ∧ (∀ x ∈ [7], x < BASE) ∧ (∀ x ∈ [4], x < BASE) ∧
      val [4] ≤ val [7] ∧
      ((Normalized (sub_slices [7] [4]) ∧
        val (sub_slices [7] [4]) = val [7] - val [4]) ∧
      to_string (sub (from_str ['1', '0', '0', '0', '0', '0', '0', '0', '0', '0'])
          (from_str ['1'])) = ['9', '9', '9', '9', '9', '9', '9', '9', '9']) :=
  ⟨by decide, by decide, by decide, by decide,
    c5_sub_correct [7] [4] (by decide) (by decide) (by decide) (by decide)⟩

/-- Claim C6: every value returned by a public operation (from_str, add,
sub, shift_left, mul_direct, mul_dc, mul_karatsuba, applied to normalized
operands) is a non-empty limb sequence with every limb below BASE whose
most significant limb is nonzero unless it is exactly the single limb 0. -/
theorem c6_outputs_normalized (a b : BigInt) (s : List Char) (k : Nat)
    (ha : Normalized a.digits) (hb : Normalized b.digits) :
    Normalized (from_str s).digits ∧ Normalized (add a b).digits ∧
      Normalized (sub a b).digits ∧ Normalized (shift_left a k).digits ∧
      Normalized (mul_direct a b).digits ∧ Normalized (mul_dc a b).digits ∧
      Normalized (mul_karatsuba a b).digits := by
  refine ⟨normalized_from_str s, ?_, ?_, ?_, ?_, ?_, ?_⟩
  · show Normalized (add_slices a.digits b.digits)
    rw [add_slices_eq_canonRepr ha.2.1 hb.2.1]
    exact normalized_canonRepr _
  · exact normalized_sub_slices ha.1 ha.2.1 hb.2.1
  · exact normalized_shift_left_slices ha k
  · show Normalized (mul_direct_slices a.digits b.digits)
    rw [mul_direct_slices_eq_canonRepr ha.2.1 hb.2.1]
    exact normalized_canonRepr _
  · show Normalized (mul_dc_slices a.digits b.digits)
    rw [mul_dc_slices_eq_canonRepr (max a.digits.length b.digits.length)
      a.digits b.digits (le_refl _) ha.2.1 hb.2.1]
    exact normalized_canonRepr _
  · show Normalized (mul_karatsuba_slices a.digits b.digits)
    rw [mul_karatsuba_slices_eq_canonRepr (max a.digits.length b.digits.length)
      a.digits b.digits (le_refl _) ha.2.1 hb.2.1]
    exact normalized_canonRepr _

theorem c6_witness :
    Normalized (BigInt.mk [5]).digits ∧ Normalized (BigInt.mk [6]).digits ∧
      (Normalized (from_str ['7']).digits ∧
        Normalized (add ⟨[5]⟩ ⟨[6]⟩).digits ∧
        Normalized (sub ⟨[5]⟩ ⟨[6]⟩).digits ∧
        Normalized (shift_left ⟨[5]⟩ 1).digits ∧
        Normalized (mul_direct ⟨[5]⟩ ⟨[6]⟩).digits ∧
        Normalized (mul_dc ⟨[5]⟩ ⟨[6]⟩).digits ∧
        Normalized (mul_karatsuba ⟨[5]⟩ ⟨[6]⟩).digits) :=
  ⟨by decide, by decide,
    c6_outputs_normalized ⟨[5]⟩ ⟨[6]⟩ ['7'] 1 (by decide) (by decide)⟩

/-- Claim C7: for every normalized BigInt a and every k, shift_left a k
represents value(a) times BASE to the k and equals mul_direct of a with
the canonical representation of BASE to the k; when a is the zero value
the result is the single-limb zero sequence regardless of k. -/
theorem c7_shift_left_correct (a : BigInt) (k : Nat) (ha : Normalized a.digits) :
    val (shift_left a k).digits = val a.digits * BASE ^ k ∧
      shift_left a k = mul_direct a ⟨canonRepr (BASE ^ k)⟩ ∧
      (val a.digits = 0 → (shift_left a k).digits = [0]) := by
  have hz : val a.digits = 0 → a.digits = [0] := by
    intro h0
    have := eq_canonRepr_of_normalized ha
    rw [h0] at this
    exact this
  refine ⟨?_, ?_, ?_⟩
  · show val (shift_left_slices a.digits k) = _
    rw [val_shift_left_slices]
    ring
  · apply BigInt_ext
    show shift_left_slices a.digits k = mul_direct_slices a.digits (canonRepr (BASE ^ k))
    rw [mul_direct_slices_eq_canonRepr ha.2.1 (canonRepr_lt _), val_canonRepr]
    rw [eq_canonRepr_of_normalized (normalized_shift_left_slices ha k),
      val_shift_left_slices]
    congr 1
    ring
  · intro h0
    show shift_left_slices a.digits k = [0]
    rw [hz h0]
    rfl

theorem c7_witness :
    Normalized (BigInt.mk [8]).digits ∧
      (val (shift_left ⟨[8]⟩ 2).digits = val [8] * BASE ^ 2 ∧
        shift_left ⟨[8]⟩ 2 = mul_direct ⟨[8]⟩ ⟨canonRepr (BASE ^ 2)⟩ ∧
        (val (BigInt.mk [8]).digits = 0 → (shift_left ⟨[8]⟩ 2).digits = [0])) :=
  ⟨by decide, c7_shift_left_correct ⟨[8]⟩ 2 (by decide)⟩

theorem utf8Len_ascii {c : Char} (h : c.toNat < 128) : utf8Len c = 1 := by
  unfold utf8Len
  rw [if_pos h]

theorem byteLen_ascii {s : List Char} (h : ∀ c ∈ s, c.toNat < 128) :
    byteLen s = s.length := by
  induction s with
  | nil => rfl
  | cons c cs ih =>
    simp only [byteLen, List.map_cons, List.sum_cons, List.length_cons]
    rw [utf8Len_ascii (h c (by simp))]
    have h2 := ih (fun z hz => h z (by simp [hz]))
    simp only [byteLen] at h2
    omega

theorem splitAtByte_ascii : ∀ (p : Nat) (s : List Char),
    (∀ c ∈ s, c.toNat < 128) → p ≤ s.length →
    splitAtByte p s = some (s.take p, s.drop p) := by
  intro p s
  induction s generalizing p with
  | nil =>
    intro _ hp
    cases p with
    | zero => rfl
    | succ q => simp at hp
  | cons c cs ih =>
    intro h hp
    cases p with
    | zero => rfl
    | succ q =>
      have hc : utf8Len c = 1 := utf8Len_ascii (h c (by simp))
      simp only [splitAtByte, hc]
      rw [if_pos (by omega)]
      rw [ih (q + 1 - 1) (fun z hz => h z (by simp [hz]))
        (by simp only [List.length_cons] at hp; omega)]
      simp

theorem byteChunkLoop_ascii : ∀ (n : Nat), ∀ (s : List Char), s.length ≤ n →
    (∀ c ∈ s, c.toNat < 128) → byteChunkLoop s = some (chunkLoop s) := by
  intro n
  induction n with
  | zero =>
    intro s hn _
    have hs : s = [] := by
      cases s with
      | nil => rfl
      | cons c cs => simp at hn
    subst hs
    rw [byteChunkLoop.eq_def, chunkLoop.eq_def]
    rfl
  | succ n ih =>
    intro s hn hascii
    rw [byteChunkLoop.eq_def, chunkLoop.eq_def]
    by_cases hemp : s.isEmpty
    · rw [if_pos hemp, dif_pos hemp]
    · rw [if_neg hemp, dif_neg hemp]
      have hlen : 0 < s.length := by
        cases s with
        | nil => simp at hemp
        | cons c cs => simp
      have hbl : byteLen s = s.length := byteLen_ascii hascii
      have hsplit : splitAtByte (byteLen s - min 9 (byteLen s)) s =
          some (s.take (s.length - min 9 s.length),
            s.drop (s.length - min 9 s.length)) := by
        rw [hbl]
        exact splitAtByte_ascii _ s hascii (by omega)
      split
      · rename_i heq
        rw [hsplit] at heq
        simp at heq
      · rename_i pre chunk heq
        rw [hsplit] at heq
        simp only [Option.some.injEq, Prod.mk.injEq] at heq
        obtain ⟨hpre, hchunk⟩ := heq
        subst hpre
        subst hchunk
        rw [ih (s.take (s.length - min 9 s.length))
          (by simp only [List.length_take]; omega)
          (fun z hz => hascii z (List.take_subset _ _ hz))]

theorem from_str_bytes_ascii {s : List Char} (hascii : ∀ c ∈ s, c.toNat < 128) :
    from_str_bytes s = some (from_str s) := by
  unfold from_str_bytes from_str
  by_cases hemp : s.isEmpty
  · rw [if_pos hemp, if_pos hemp]
  · rw [if_neg hemp, if_neg hemp,
      byteChunkLoop_ascii s.length s (le_refl _) hascii]

/-- Claim C8 counterexamples, against the byte-exact model of from_str:
the two-character input plus-then-one forms a single chunk containing the
non-digit plus sign yet contributes the limb 1, not 0 (Rust's u32 parser
accepts an optional leading plus sign); chunking counts bytes, not
characters, so nine ones followed by the two-byte letter e-acute is split
after two bytes into limbs [0, 11] where up-to-nine-character chunking
gives [0, 1]; and on e-acute followed by eight ASCII letters the nine-byte
boundary falls inside the two-byte character, so the program panics
instead of never failing. -/
theorem c8_counterexample :
    (from_str_bytes ['+', '1'] = some ⟨[1]⟩ ∧ isDigitChar '+' = false ∧
      (⟨[1]⟩ : BigInt) ≠ ⟨[0]⟩) ∧
      from_str_bytes ['1', '1', '1', '1', '1', '1', '1', '1', '1', 'é'] =
        some ⟨[0, 11]⟩ ∧
      from_str ['1', '1', '1', '1', '1', '1', '1', '1', '1', 'é'] = ⟨[0, 1]⟩ ∧
      from_str_bytes ['é', 'a', 'a', 'a', 'a', 'a', 'a', 'a', 'a'] = none := by
  refine ⟨⟨?_, by decide, by decide⟩, ?_, ?_, ?_⟩
  · simp [from_str_bytes, byteChunkLoop, splitAtByte, byteLen, utf8Len,
      rustParseU32, u32ParseOk, stripPlus, parseDigits, isDigitChar, normalize,
      stripLeadKeep]
  · simp [from_str_bytes, byteChunkLoop, splitAtByte, byteLen, utf8Len,
      rustParseU32, u32ParseOk, stripPlus, parseDigits, isDigitChar, normalize,
      stripLeadKeep]
  · simp [from_str, chunkLoop, rustParseU32, u32ParseOk, stripPlus, parseDigits,
      isDigitChar, normalize, stripLeadKeep]
  · simp [from_str_bytes, byteChunkLoop, splitAtByte, byteLen, utf8Len]

/-- Claim C8 as amended: from_str splits its input into chunks of up to
nine bytes from the right; when a chunk boundary falls inside a
multi-byte character the program panics (the byte-level model returns
none); otherwise every chunk that does not parse as a Rust u32 — an
optional leading plus sign followed by at least one decimal digit —
contributes the limb value 0, and chunks that do parse contribute their
numeric value.  On ASCII input, one byte per character, parsing never
fails, the byte model agrees with the character-level from_str, and the
chunks are exactly the one-to-nine-character chunks reassembling to the
input. -/
theorem c8_chunk_parsing (s : List Char) (hascii : ∀ c ∈ s, c.toNat < 128) :
    from_str_bytes s = some (from_str s) ∧
      byteChunkLoop s = some ((chunkList s).map rustParseU32) ∧
      (∀ c ∈ chunkList s, 1 ≤ c.length ∧ c.length ≤ 9) ∧
      ((chunkList s).reverse).flatten = s ∧
      (∀ cs : List Char, ¬ u32ParseOk cs → rustParseU32 cs = 0) ∧
      (∀ cs : List Char, cs.length ≤ 9 →
        (u32ParseOk cs = true ↔
          (stripPlus cs ≠ [] ∧ ∀ c ∈ stripPlus cs, isDigitChar c))) := by
  refine ⟨from_str_bytes_ascii hascii, ?_, chunkList_lengths s, chunkList_flatten s,
    fun _ h => rustParseU32_of_not_ok h, fun _ h => u32ParseOk_char_iff h⟩
  rw [byteChunkLoop_ascii s.length s (le_refl _) hascii, chunkLoop_eq_map]

theorem c8_witness :
    (∀ c ∈ (['x', '3'] : List Char), c.toNat < 128) ∧
      (from_str_bytes ['x', '3'] = some (from_str ['x', '3']) ∧
        byteChunkLoop ['x', '3'] = some ((chunkList ['x', '3']).map rustParseU32) ∧
        (∀ c ∈ chunkList ['x', '3'], 1 ≤ c.length ∧ c.length ≤ 9) ∧
        ((chunkList ['x', '3']).reverse).flatten = ['x', '3'] ∧
        (∀ cs : List Char, ¬ u32ParseOk cs → rustParseU32 cs = 0) ∧
        (∀ cs : List Char, cs.length ≤ 9 →
          (u32ParseOk cs = true ↔
            (stripPlus cs ≠ [] ∧ ∀ c ∈ stripPlus cs, isDigitChar c)))) :=
  ⟨by decide, c8_chunk_parsing ['x', '3'] (by decide)⟩

/-- Claim C9: both recursive multiplications terminate: above the
threshold of 32 limbs, every recursive call — the four take/drop slice
pairs and Karatsuba's call on the limb sums, which may be one limb longer
than half — has operands of strictly smaller maximum length. -/
theorem c9_recursion_measure_decreases (a b : List Nat)
    (hne : ¬(a = [] ∨ b = [])) (hbig : 32 < max a.length b.length) :
    max (a.take (max a.length b.length / 2)).length
        (b.take (max a.length b.length / 2)).length < max a.length b.length ∧
      max (a.drop (max a.length b.length / 2)).length
        (b.drop (max a.length b.length / 2)).length < max a.length b.length ∧
      max (a.take (max a.length b.length / 2)).length
        (b.drop (max a.length b.length / 2)).length < max a.length b.length ∧
      max (a.drop (max a.length b.length / 2)).length
        (b.take (max a.length b.length / 2)).length < max a.length b.length ∧
      max (add_slices (a.take (max a.length b.length / 2))
          (a.drop (max a.length b.length / 2))).length
        (add_slices (b.take (max a.length b.length / 2))
          (b.drop (max a.length b.length / 2))).length < max a.length b.length := by
  push_neg at hne
  have ha : 0 < a.length := List.length_pos.mpr hne.1
  have hb : 0 < b.length := List.length_pos.mpr hne.2
  have k1 := add_slices_length_le (a.take (max a.length b.length / 2))
    (a.drop (max a.length b.length / 2))
  have k2 := add_slices_length_le (b.take (max a.length b.length / 2))
    (b.drop (max a.length b.length / 2))
  simp only [List.length_take, List.length_drop] at k1 k2 ⊢
  omega

theorem c9_witness :
    (¬((List.replicate 33 (1 : Nat)) = [] ∨ (List.replicate 33 (1 : Nat)) = [])) ∧
      (32 < max (List.replicate 33 (1 : Nat)).length
        (List.replicate 33 (1 : Nat)).length) ∧
      (max ((List.replicate 33 (1 : Nat)).take
            (max (List.replicate 33 (1 : Nat)).length
              (List.replicate 33 (1 : Nat)).length / 2)).length
          ((List.replicate 33 (1 : Nat)).take
            (max (List.replicate 33 (1 : Nat)).length
              (List.replicate 33 (1 : Nat)).length / 2)).length <
        max (List.replicate 33 (1 : Nat)).length
          (List.replicate 33 (1 : Nat)).length) :=
  ⟨by decide, by decide,
    (c9_recursion_measure_decreases (List.replicate 33 1) (List.replicate 33 1)
      (by decide) (by decide)).1⟩

/-- Claim C10: for every non-empty all-digit string s, including strings
with leading zeros, from_str returns the canonical representation of the
number s denotes; rendering it back gives s with its leading zeros
stripped, or the single character 0 when every character is 0. -/
theorem c10_leading_zeros (s : List Char) (hne : s ≠ [])
    (hd : ∀ c ∈ s, isDigitChar c) :
    (from_str s).digits = canonRepr (parseDigits s) ∧
      to_string (from_str s) =
        (if s.dropWhile (fun c => c = '0') = [] then ['0']
         else s.dropWhile (fun c => c = '0')) := by
  refine ⟨from_str_digits_eq_canonRepr hd, ?_⟩
  have hfs : from_str s = ⟨canonRepr (parseDigits s)⟩ :=
    BigInt_ext (from_str_digits_eq_canonRepr hd)
  rw [hfs]
  cases ht : s.dropWhile (fun c => decide (c = '0')) with
  | nil =>
    rw [if_pos rfl]
    have hz : parseDigits s = 0 := by
      rw [parseDigits_dropWhile_zeros s, ht]
      rfl
    rw [hz]
    rfl
  | cons c rest =>
    rw [if_neg (by simp)]
    have hc0 : c ≠ '0' := by
      have := List.head?_dropWhile_not (fun c => decide (c = '0')) s
      rw [ht] at this
      simp only [List.head?_cons] at this
      simpa using this
    have htd : ∀ x ∈ c :: rest, isDigitChar x := by
      intro x hx
      refine hd x ?_
      have hsub := List.dropWhile_sublist (l := s) (fun c => decide (c = '0'))
      rw [ht] at hsub
      exact hsub.subset hx
    have hval : parseDigits s = parseDigits (c :: rest) := by
      rw [parseDigits_dropWhile_zeros s, ht]
    rw [hval, to_string_canonRepr,
      natToString_of_pos (parseDigits_pos (htd c (by simp)) hc0)]
    exact decimalChars_parseDigits (by simp) htd (by simpa using hc0)

theorem c10_witness :
    (['0', '0', '0', '1', '2', '3'] : List Char) ≠ [] ∧
      (∀ c ∈ ['0', '0', '0', '1', '2', '3'], isDigitChar c) ∧
      ((from_str ['0', '0', '0', '1', '2', '3']).digits =
          canonRepr (parseDigits ['0', '0', '0', '1', '2', '3']) ∧
        to_string (from_str ['0', '0', '0', '1', '2', '3']) =
          (if (['0', '0', '0', '1', '2', '3'] : List Char).dropWhile
              (fun c => c = '0') = [] then ['0']
           else (['0', '0', '0', '1', '2', '3'] : List Char).dropWhile
              (fun c => c = '0'))) :=
  ⟨by decide, by decide,
    c10_leading_zeros ['0', '0', '0', '1', '2', '3'] (by decide) (by decide)⟩

end BigMul
